import Mathlib

/-! The msieve savefile (`misc/savefile.c`): a buffered line log.

A shallow embedding of the direct-resource build of `savefile.c` (the branch
compiled under `WIN32`/`_WIN64`), the build in which the module keeps its own
read staging buffer (`read_size`, `buf_off`, `eof`).  The other build hands
reading to the C library (`fgets`, `feof`).

Bytes are natural numbers, memory regions (`s->buf`, the caller's `buf`) are
functions from an index to a byte, and the operating system is a single named
file whose content is a list of bytes together with the record of the calls
made on it.
-/

namespace Savefile

/-! ## Memory -/

/-- One memory region: the byte stored at each index. -/
abbrev Mem := Nat → Nat

/-- The assignment `mem[k] = v`. -/
def store (mem : Mem) (k v : Nat) : Mem :=
  fun n => if n = k then v else mem n

/-- Copy of the bytes `l` into `mem[off], mem[off+1], ...`. -/
def blit (mem : Mem) (off : Nat) (l : List Nat) : Mem :=
  fun n => if off ≤ n ∧ n < off + l.length then l.getD (n - off) 0 else mem n

/-- The bytes `mem[lo], ..., mem[hi-1]`. -/
def bytes (mem : Mem) (lo hi : Nat) : List Nat :=
  (List.range' lo (hi - lo)).map mem

/-! ## The operating system -/

/-- Access requested from `CreateFile`. -/
inductive Access where
  | GENERIC_READ
  | GENERIC_WRITE
deriving DecidableEq

/-- Creation disposition passed to `CreateFile`. -/
inductive Disposition where
  | OPEN_EXISTING
  | OPEN_ALWAYS
  | CREATE_ALWAYS
deriving DecidableEq

/-- Origin of a `SetFilePointerEx` move. -/
inductive MoveMethod where
  | FILE_BEGIN
  | FILE_END
deriving DecidableEq

/-- An open handle: its access right and its file pointer. -/
structure Handle where
  access : Access
  pos : Nat
deriving DecidableEq

/-- One call made on the operating system, kept in the order made. -/
inductive OsCall where
  | createFile (access : Access) (disp : Disposition)
  | setFilePointerEx (dist : Nat) (method : MoveMethod)
  | readFile (want got : Nat)
  | writeFile (data : List Nat)
  | flushFileBuffers
  | closeHandle
deriving DecidableEq

/-- What `exit` leaves behind: the status and the text printed before it. -/
structure ProcessExit where
  code : Int
  output : String
deriving DecidableEq

/-- The value of `SAVEFILE_BUF_SIZE`. -/
def SAVEFILE_BUF_SIZE : Nat := 65536

/-- The largest `size_t` (of the 64-bit build). -/
def SIZE_MAX : Nat := 2 ^ 64 - 1

/-- The struct `savefile_t` of `msieve.h` (direct-resource build) together with
the file its `name` designates: `disk` is the content the operating system holds
for that name (`none` when no such file exists) and `calls` the calls made so
far.  The `uint32` fields are natural numbers: the module never takes them
past the size of a text or of the staging buffer, so their wrap-around at
`2^32` plays no part. -/
structure savefile_t where
  disk : Option (List Nat)
  calls : List OsCall
  file_handle : Option Handle
  read_size : Nat
  eof : Bool
  name : String
  buf : Mem
  buf_off : Nat

/-- The OS call `CreateFile(s->name, access, ..., disp, ...)`: the new handle, or
`none` for `INVALID_HANDLE_VALUE`. -/
def CreateFile (s : savefile_t) (access : Access) (disp : Disposition) :
    Option Handle × savefile_t :=
  let s1 := { s with calls := s.calls ++ [OsCall.createFile access disp] }
  match disp, s.disk with
  | Disposition.OPEN_EXISTING, none => (none, s1)
  | Disposition.OPEN_EXISTING, some _ => (some ⟨access, 0⟩, s1)
  | Disposition.OPEN_ALWAYS, none => (some ⟨access, 0⟩, { s1 with disk := some [] })
  | Disposition.OPEN_ALWAYS, some _ => (some ⟨access, 0⟩, s1)
  | Disposition.CREATE_ALWAYS, _ => (some ⟨access, 0⟩, { s1 with disk := some [] })

/-- The OS call `SetFilePointerEx(s->file_handle, dist, NULL, method)`. -/
def SetFilePointerEx (s : savefile_t) (dist : Nat) (method : MoveMethod) : savefile_t :=
  let s1 := { s with calls := s.calls ++ [OsCall.setFilePointerEx dist method] }
  match s.file_handle, s.disk with
  | some h, some data =>
    match method with
    | MoveMethod.FILE_BEGIN => { s1 with file_handle := some { h with pos := dist } }
    | MoveMethod.FILE_END => { s1 with file_handle := some { h with pos := data.length + dist } }
  | _, _ => s1

/-- The bytes a `ReadFile` of `want` bytes obtains: the next `want` bytes at the
file pointer, fewer at the end of the file, none without a readable handle. -/
def readChunk (s : savefile_t) (want : Nat) : List Nat :=
  match s.file_handle, s.disk with
  | some ⟨Access.GENERIC_READ, pos⟩, some data => (data.drop pos).take want
  | _, _ => []

/-- The OS call `ReadFile(s->file_handle, s->buf, want, &num_read, NULL)`: stores
the bytes read at the start of `s->buf`, advances the file pointer, and
returns `num_read`. -/
def ReadFile (s : savefile_t) (want : Nat) : Nat × savefile_t :=
  let chunk := readChunk s want
  let s1 := { s with calls := s.calls ++ [OsCall.readFile want chunk.length],
                     buf := blit s.buf 0 chunk }
  match s.file_handle with
  | some h => (chunk.length, { s1 with file_handle := some { h with pos := h.pos + chunk.length } })
  | none => (chunk.length, s1)

/-- The OS call `WriteFile(s->file_handle, s->buf, n, &num_write, NULL)`: puts
`s->buf[0..n)` at the file pointer, over what is there and past the end, and
advances the pointer. -/
def WriteFile (s : savefile_t) (n : Nat) : savefile_t :=
  let data := bytes s.buf 0 n
  let s1 := { s with calls := s.calls ++ [OsCall.writeFile data] }
  match s.file_handle, s.disk with
  | some ⟨Access.GENERIC_WRITE, pos⟩, some old =>
    let base := old ++ List.replicate (pos - old.length) 0
    { s1 with disk := some (base.take pos ++ data ++ base.drop (pos + data.length)),
              file_handle := some ⟨Access.GENERIC_WRITE, pos + data.length⟩ }
  | _, _ => s1

/-- The OS call `FlushFileBuffers(s->file_handle)`; `disk` is already the stored
content, so only the call is recorded. -/
def FlushFileBuffers (s : savefile_t) : savefile_t :=
  { s with calls := s.calls ++ [OsCall.flushFileBuffers] }

/-- The OS call `CloseHandle(s->file_handle)`. -/
def CloseHandle (s : savefile_t) : savefile_t :=
  { s with calls := s.calls ++ [OsCall.closeHandle] }

/-! ## C strings -/

/-- The content of the C string that starts with the bytes `text`: the bytes
ahead of the first NUL. -/
def cstr (text : List Nat) : List Nat :=
  text.takeWhile (fun c => c != 0)

/-- The C library's `strlen`. -/
def strlen (text : List Nat) : Nat :=
  (cstr text).length

/-- The call `sprintf(mem + off, "%s", text)`: the string and its closing NUL
are stored from `off` on; the value returned is the string's length. -/
def sprintf (mem : Mem) (off : Nat) (text : List Nat) : Nat × Mem :=
  (strlen text, blit mem off (cstr text ++ [0]))

/-! ## The savefile operations -/

/-- Modelled from the spec: the flag words `SAVEFILE_READ`, `SAVEFILE_WRITE` and
`SAVEFILE_APPEND` are declared in a header that is not part of the sources at
hand; the spec names the three modes Read, Write and Append.  A `flags`
argument is kept as the outcome of the three tests the code makes on it:
`flags & SAVEFILE_READ`, `flags & SAVEFILE_WRITE`, `flags & SAVEFILE_APPEND`. -/
structure Flags where
  read : Bool
  write : Bool
  append : Bool
deriving DecidableEq

/-- Modelled from the spec: the flag word of the Read mode (see `Flags`). -/
def SAVEFILE_READ : Flags := ⟨true, false, false⟩

/-- Modelled from the spec: the flag word of the Write mode (see `Flags`). -/
def SAVEFILE_WRITE : Flags := ⟨false, true, false⟩

/-- Modelled from the spec: the flag word of the Append mode (see `Flags`). -/
def SAVEFILE_APPEND : Flags := ⟨false, false, true⟩

/-- The value of `MSIEVE_DEFAULT_SAVEFILE`. -/
def MSIEVE_DEFAULT_SAVEFILE : String := "msieve.dat"

/-- The function `savefile_init`: every field zeroed, the name set, and a fresh
buffer whose content `heap` is whatever `xmalloc` returned.  `disk` is the file
the name designates at that moment. -/
def savefile_init (disk : Option (List Nat)) (heap : Mem) (savefile_name : Option String) :
    savefile_t :=
  { disk := disk
    calls := []
    file_handle := none
    read_size := 0
    eof := false
    name := match savefile_name with
      | some n => n
      | none => MSIEVE_DEFAULT_SAVEFILE
    buf := heap
    buf_off := 0 }

/-- The function `savefile_open`, lines 62-120: `Except.error` is the
`printf` and `exit(-1)` taken when `CreateFile` fails. -/
def savefile_open (s : savefile_t) (flags : Flags) : Except ProcessExit savefile_t :=
  let access_arg := if flags.read then Access.GENERIC_READ else Access.GENERIC_WRITE
  let open_arg :=
    if flags.read then Disposition.OPEN_EXISTING
    else if flags.append then Disposition.OPEN_ALWAYS
    else Disposition.CREATE_ALWAYS
  let (h, s1) := CreateFile s access_arg open_arg
  let s2 := { s1 with file_handle := h }
  match h with
  | none => Except.error ⟨-1, "error: cannot open '" ++ s.name ++ "'"⟩
  | some _ =>
    let s3 := if flags.append then SetFilePointerEx s2 0 MoveMethod.FILE_END else s2
    Except.ok { s3 with read_size := 0, eof := false, buf_off := 0 }

/-- The function `savefile_close`, lines 123-132. -/
def savefile_close (s : savefile_t) : savefile_t :=
  { CloseHandle s with file_handle := none }

/-- The function `savefile_eof`, line 138. -/
def savefile_eof (s : savefile_t) : Bool :=
  decide (s.buf_off = s.read_size) && s.eof

/-- The function `savefile_exists`, lines 145-154. -/
def savefile_exists (s : savefile_t) : Bool :=
  s.disk.isSome

/-- The test `c == '\n' || c == '\r'`. -/
def isTerm (c : Nat) : Bool :=
  c == 10 || c == 13

/-- The value of `max_len - 1` in `size_t` arithmetic. -/
def limit (max_len : Nat) : Nat :=
  if max_len = 0 then SIZE_MAX else max_len - 1

/-- Where a copy loop of `savefile_read_line` stands when it is left: the
indices `i` and `j`, the caller's buffer, and whether it was left from inside
the terminator test (then `i` and `j` are still the indices of the
terminator). -/
structure Copy where
  i : Nat
  j : Nat
  dest : Mem
  hit : Bool

/-- The loop `for (...; i < s->read_size && j < max_len - 1; i++, j++)` shared by
lines 163-171 and 183-190: `buf[j] = sbuf[i]`, left at the first terminator.
The first argument bounds the number of iterations; `read_size - i` is
enough. -/
def copy_loop (sbuf : Mem) (read_size lim : Nat) : Nat → Nat → Nat → Mem → Copy
  | 0, i, j, dest => ⟨i, j, dest, false⟩
  | fuel + 1, i, j, dest =>
    if i < read_size ∧ j < lim then
      let dest1 := store dest j (sbuf i)
      if isTerm (dest1 j) then ⟨i, j, dest1, true⟩
      else copy_loop sbuf read_size lim fuel (i + 1) (j + 1) dest1
    else ⟨i, j, dest, false⟩

/-- What `savefile_read_line` leaves: the caller's buffer, the index at which it
stored the closing NUL, and the savefile. -/
structure ReadResult where
  dest : Mem
  len : Nat
  s : savefile_t

/-- The bytes stored ahead of the closing NUL: the string handed back.  It is
what the caller reads as a C string whenever none of these bytes is itself a
NUL, as in a text file. -/
def ReadResult.line (r : ReadResult) : List Nat :=
  bytes r.dest 0 r.len

/-- Lines 173-182 of `savefile_read_line`: when the staging buffer has run out
and `eof` is not set, one `ReadFile` of `SAVEFILE_BUF_SIZE` bytes refills it. -/
def refill (s : savefile_t) : savefile_t :=
  if s.buf_off = s.read_size ∧ s.eof = false then
    let (num_read, t) := ReadFile s SAVEFILE_BUF_SIZE
    { t with read_size := num_read, buf_off := 0,
             eof := if num_read < SAVEFILE_BUF_SIZE then true else t.eof }
  else s

/-- The function `savefile_read_line(buf, max_len, s)`, lines 160-192; `dest` is
the caller's `buf` on entry. -/
def savefile_read_line (dest : Mem) (max_len : Nat) (s : savefile_t) : ReadResult :=
  let lim := limit max_len
  let c1 := copy_loop s.buf s.read_size lim (s.read_size - s.buf_off) s.buf_off 0 dest
  if c1.hit then
    ⟨store c1.dest (c1.j + 1) 0, c1.j + 1, { s with buf_off := c1.i + 1 }⟩
  else
    let s2 := refill { s with buf_off := c1.i }
    let c2 := copy_loop s2.buf s2.read_size lim (s2.read_size - s2.buf_off) s2.buf_off c1.j c1.dest
    let i := if c2.hit then c2.i + 1 else c2.i
    let j := if c2.hit then c2.j + 1 else c2.j
    ⟨store c2.dest j 0, j, { s2 with buf_off := i }⟩

/-- The function `savefile_flush`, lines 208-224. -/
def savefile_flush (s : savefile_t) : savefile_t :=
  let s1 := if s.buf_off ≠ 0 then WriteFile s s.buf_off else s
  let s2 := FlushFileBuffers s1
  { s2 with buf_off := 0, buf := store s2.buf 0 0 }

/-- The function `savefile_write_line`, lines 199-205. -/
def savefile_write_line (s : savefile_t) (text : List Nat) : savefile_t :=
  let s1 := if s.buf_off + strlen text + 1 ≥ SAVEFILE_BUF_SIZE then savefile_flush s else s
  let (n, mem) := sprintf s1.buf s1.buf_off text
  { s1 with buf := mem, buf_off := s1.buf_off + n }

/-- The function `savefile_rewind`, lines 227-239. -/
def savefile_rewind (s : savefile_t) : savefile_t :=
  let s1 := SetFilePointerEx s 0 MoveMethod.FILE_BEGIN
  { s1 with read_size := 0, buf_off := 0, eof := false }

/-! ## Sequences of calls -/

/-- The strings handed back by `n` successive `savefile_read_line` calls, and
the savefile they leave. -/
def read_lines (dest : Mem) (max_len : Nat) : Nat → savefile_t → List (List Nat) × savefile_t
  | 0, s => ([], s)
  | n + 1, s =>
    let r := savefile_read_line dest max_len s
    let rest := read_lines r.dest max_len n r.s
    (r.line :: rest.1, rest.2)

/-- The loop `while (!savefile_eof(s)) savefile_read_line(buf, max_len, s)`, run
for at most `fuel` calls: the strings handed back and the savefile left, or
`none` when `fuel` calls do not reach the end. -/
def read_until_eof (dest : Mem) (max_len : Nat) : Nat → savefile_t → Option (List (List Nat) × savefile_t)
  | 0, s => if savefile_eof s then some ([], s) else none
  | fuel + 1, s =>
    if savefile_eof s then some ([], s)
    else
      let r := savefile_read_line dest max_len s
      match read_until_eof r.dest max_len fuel r.s with
      | some (ls, t) => some (r.line :: ls, t)
      | none => none

/-- The calls `savefile_write_line(s, t)` for each `t` of `texts`, in order. -/
def write_lines (s : savefile_t) (texts : List (List Nat)) : savefile_t :=
  texts.foldl savefile_write_line s

/-! ## Views of a state, and concrete inputs -/

/-- The first line of `l` cut to at most `k` bytes: the bytes up to and
including the first terminator, or the first `k` bytes when no terminator comes
that early. -/
def takeLine : Nat → List Nat → List Nat
  | 0, _ => []
  | _ + 1, [] => []
  | k + 1, c :: cs => if isTerm c then [c] else c :: takeLine k cs

/-- The staged bytes not yet handed out: `sbuf[buf_off .. read_size)`. -/
def staged (s : savefile_t) : List Nat :=
  bytes s.buf s.buf_off s.read_size

/-- The bytes of the file that lie at and after the file pointer. -/
def ahead (s : savefile_t) : List Nat :=
  match s.file_handle, s.disk with
  | some h, some data => data.drop h.pos
  | _, _ => []

/-- Every byte of the file not yet handed to the caller. -/
def unread (s : savefile_t) : List Nat :=
  staged s ++ ahead s

/-- The string one `savefile_read_line` hands back, as a function of the state:
the first copy's piece, and the second copy's piece after it when the first
did not end on a terminator. -/
def lineOf (lim : Nat) (s : savefile_t) : List Nat :=
  let t1 := takeLine lim (staged s)
  if t1.any isTerm then t1
  else t1 ++ takeLine (lim - t1.length) (staged (refill { s with buf_off := s.buf_off + t1.length }))

/-- The savefile one `savefile_read_line` leaves, as a function of the state. -/
def stateOf (lim : Nat) (s : savefile_t) : savefile_t :=
  let t1 := takeLine lim (staged s)
  if t1.any isTerm then { s with buf_off := s.buf_off + t1.length }
  else
    let s2 := refill { s with buf_off := s.buf_off + t1.length }
    { s2 with buf_off := s2.buf_off + (takeLine (lim - t1.length) (staged s2)).length }

/-- What one `savefile_read_line` can see without a second refill: the staged
bytes and, unless `eof` is set, the next `SAVEFILE_BUF_SIZE` bytes of the
file. -/
def window (s : savefile_t) : List Nat :=
  staged s ++ (if s.eof then [] else (ahead s).take SAVEFILE_BUF_SIZE)

/-- The states of a savefile open for reading on a file of content `data`:
the handle is readable, the file pointer is inside the file, at its end once
`eof` is set and a whole number of buffers into it before, and the staging
indices are ordered. -/
structure ReadInv (s : savefile_t) (data : List Nat) : Prop where
  disk : s.disk = some data
  handle : ∃ pos, s.file_handle = some ⟨Access.GENERIC_READ, pos⟩ ∧ pos ≤ data.length ∧
    (s.eof = true → pos = data.length) ∧ (s.eof = false → SAVEFILE_BUF_SIZE ∣ pos)
  off_le : s.buf_off ≤ s.read_size
  size_le : s.read_size ≤ SAVEFILE_BUF_SIZE

/-- Whether `l` is one whole line: its last byte is a terminator and no byte
ahead of it is. -/
def endsLine (l : List Nat) : Bool :=
  match l.getLast? with
  | some c => isTerm c && l.dropLast.all (fun x => !isTerm x)
  | none => false

/-- Whether `l` is a newline-terminated line: bytes free of terminators, then
`'\n'`. -/
def isLine (l : List Nat) : Bool :=
  l.getLast? == some 10 && l.dropLast.all (fun x => !isTerm x)

/-- The savefile after the calls `savefile_read_line(a.1, a.2, s)` for each `a`
of `args`, in order. -/
def read_calls (args : List (Mem × Nat)) (s : savefile_t) : savefile_t :=
  args.foldl (fun t a => (savefile_read_line a.1 a.2 t).s) s

/-- A region holding zeros. -/
def zeroMem : Mem := fun _ => 0

/-- The two records `"15211 3 5\n"` and `"998877 7 11 13\n"`. -/
def demoLines : List (List Nat) :=
  [[49, 53, 50, 49, 49, 32, 51, 32, 53, 10],
   [57, 57, 56, 56, 55, 55, 32, 55, 32, 49, 49, 32, 49, 51, 10]]

/-- A savefile just opened for reading on a file of content `data`. -/
def freshRead (data : List Nat) : savefile_t :=
  { disk := some data
    calls := [OsCall.createFile Access.GENERIC_READ Disposition.OPEN_EXISTING]
    file_handle := some ⟨Access.GENERIC_READ, 0⟩
    read_size := 0
    eof := false
    name := MSIEVE_DEFAULT_SAVEFILE
    buf := zeroMem
    buf_off := 0 }

/-- A line of 65536 letters `a` and its newline: one byte longer than the
staging buffer. -/
def longLine : List Nat := List.replicate 65536 97 ++ [10]

/-- A reading state that has seen the end of its file: the state left by
reading the one line of the file `"a\n"`. -/
def atEof : savefile_t :=
  { disk := some [97, 10]
    calls := [OsCall.createFile Access.GENERIC_READ Disposition.OPEN_EXISTING,
              OsCall.readFile 65536 2]
    file_handle := some ⟨Access.GENERIC_READ, 2⟩
    read_size := 2
    eof := true
    name := MSIEVE_DEFAULT_SAVEFILE
    buf := blit zeroMem 0 [97, 10]
    buf_off := 2 }

/-- The bytes waiting in the write buffer: `buf[0 .. buf_off)`. -/
def pending (s : savefile_t) : List Nat :=
  bytes s.buf 0 s.buf_off

/-- The states of a savefile open for writing on a file of content `data`: the
handle is writable and its file pointer is at the end of the file. -/
def WriteInv (s : savefile_t) (data : List Nat) : Prop :=
  s.disk = some data ∧ s.file_handle = some ⟨Access.GENERIC_WRITE, data.length⟩

/-- A writing state on an empty file with 65530 bytes pending in the buffer: the
state left, after an open in Write mode, by one `savefile_write_line` of 65530
letters `a`. -/
def nearFull : savefile_t :=
  { disk := some []
    calls := [OsCall.createFile Access.GENERIC_WRITE Disposition.CREATE_ALWAYS]
    file_handle := some ⟨Access.GENERIC_WRITE, 0⟩
    read_size := 0
    eof := false
    name := MSIEVE_DEFAULT_SAVEFILE
    buf := fun k => if k < 65530 then 97 else 0
    buf_off := 65530 }

/-- A writing state on an empty file with two bytes pending: the state left,
after an open in Write mode, by `savefile_write_line` of `"a\n"`. -/
def twoPending : savefile_t :=
  { disk := some []
    calls := [OsCall.createFile Access.GENERIC_WRITE Disposition.CREATE_ALWAYS]
    file_handle := some ⟨Access.GENERIC_WRITE, 0⟩
    read_size := 0
    eof := false
    name := MSIEVE_DEFAULT_SAVEFILE
    buf := blit zeroMem 0 [97, 10, 0]
    buf_off := 2 }

/-- A savefile just opened for writing: the file is created empty. -/
def freshWrite : savefile_t :=
  { disk := some []
    calls := [OsCall.createFile Access.GENERIC_WRITE Disposition.CREATE_ALWAYS]
    file_handle := some ⟨Access.GENERIC_WRITE, 0⟩
    read_size := 0
    eof := false
    name := MSIEVE_DEFAULT_SAVEFILE
    buf := zeroMem
    buf_off := 0 }

/-- One call made on a savefile open for writing. -/
inductive WriteOp where
  | write_line (text : List Nat)
  | flush

/-- The savefile after one call of a writing session. -/
def write_step (s : savefile_t) : WriteOp → savefile_t
  | WriteOp.write_line text => savefile_write_line s text
  | WriteOp.flush => savefile_flush s

/-- The savefile after the calls `ops`, in order. -/
def run_write_ops (s : savefile_t) (ops : List WriteOp) : savefile_t :=
  ops.foldl write_step s

/-- A writing session: the two records of the concrete scenario, a flush, and
the first record again. -/
def demoOps : List WriteOp :=
  [WriteOp.write_line [49, 53, 50, 49, 49, 32, 51, 32, 53, 10],
   WriteOp.write_line [57, 57, 56, 56, 55, 55, 32, 55, 32, 49, 49, 32, 49, 51, 10],
   WriteOp.flush,
   WriteOp.write_line [49, 53, 50, 49, 49, 32, 51, 32, 53, 10]]

/-- One call made on a savefile open for reading. -/
inductive ReadOp where
  | read_line (dest : Mem) (max_len : Nat)
  | eof
  | rewind

/-- The savefile after one call of a reading session; `savefile_eof` only
answers. -/
def read_step (s : savefile_t) : ReadOp → savefile_t
  | ReadOp.read_line dest max_len => (savefile_read_line dest max_len s).s
  | ReadOp.eof => s
  | ReadOp.rewind => savefile_rewind s

/-- The savefile after the calls `ops`, in order. -/
def run_read_ops (s : savefile_t) (ops : List ReadOp) : savefile_t :=
  ops.foldl read_step s

/-- A reading session on the two records of the concrete scenario: a read
through a small destination, two reads, a test for the end, a rewind, a read. -/
def demoReadOps : List ReadOp :=
  [ReadOp.read_line zeroMem 4, ReadOp.read_line zeroMem 100, ReadOp.read_line zeroMem 100,
   ReadOp.eof, ReadOp.rewind, ReadOp.read_line zeroMem 100]

/-- The OS call `WriteFile(s->file_handle, s->buf, n, &num_write, NULL)` with its
outcome made explicit: `ok = false` is a write the operating system refuses
(a full disk, a lost network share), which stores nothing and leaves the file
pointer where it was.  The Boolean is the `BOOL` the call returns; a write
through a handle that is not writable fails whatever `ok` is. -/
def WriteFile_os (ok : Bool) (s : savefile_t) (n : Nat) : Bool × savefile_t :=
  match ok, s.file_handle, s.disk with
  | true, some ⟨Access.GENERIC_WRITE, _⟩, some _ => (true, WriteFile s n)
  | _, _, _ => (false, { s with calls := s.calls ++ [OsCall.writeFile (bytes s.buf 0 n)] })

/-- The function `savefile_flush`, lines 208-224, with the outcome `ok` of its OS
write made explicit.  The `BOOL` that `WriteFile` returns is dropped, as in the
source, and the function returns nothing but the savefile. -/
def savefile_flush_os (ok : Bool) (s : savefile_t) : savefile_t :=
  let s1 := if s.buf_off ≠ 0 then (WriteFile_os ok s s.buf_off).2 else s
  let s2 := FlushFileBuffers s1
  { s2 with buf_off := 0, buf := store s2.buf 0 0 }

/-- A record of 65536 letters `a` closed by `"\r\n"`. -/
def crlfLong : List Nat := List.replicate 65536 97 ++ [13, 10]

/-- The C string that starts at `mem[0]`, looked for within the `cap` bytes of
the region: the bytes ahead of the first NUL. -/
def c_string (mem : Mem) (cap : Nat) : List Nat :=
  cstr (bytes mem 0 cap)

/-- The stream build's `fprintf(s->fp, "%s", str)`: the bytes of `str` go to the
file at the stream's position; an empty string makes no write.  The stream
`s->fp` is kept in the fields that hold the direct build's handle, and the
stream's own buffering is left out: the `fflush` that follows is immediate. -/
def fprintf (s : savefile_t) (str : List Nat) : savefile_t :=
  if str = [] then s
  else
    let s1 := { s with calls := s.calls ++ [OsCall.writeFile str] }
    match s.file_handle, s.disk with
    | some ⟨Access.GENERIC_WRITE, pos⟩, some old =>
      let base := old ++ List.replicate (pos - old.length) 0
      { s1 with disk := some (base.take pos ++ str ++ base.drop (pos + str.length)),
                file_handle := some ⟨Access.GENERIC_WRITE, pos + str.length⟩ }
    | _, _ => s1

/-- The stream build's `fflush(s->fp)`; `fprintf` has already written. -/
def fflush (s : savefile_t) : savefile_t := s

/-- The function `savefile_flush` of the stream build (the `#else` branch, lines
218-223): the buffer is printed as a NUL-terminated string, whatever `buf_off`
is. -/
def savefile_flush_stream (s : savefile_t) : savefile_t :=
  let s1 := fprintf s (c_string s.buf SAVEFILE_BUF_SIZE)
  let s2 := fflush s1
  { s2 with buf_off := 0, buf := store s2.buf 0 0 }

/-- The savefile of `twoPending` closed without a flush and opened again in
Append mode: the offset is back to 0 and the buffer still holds `"a\n"`. -/
def staleOpen : savefile_t :=
  { disk := some []
    calls := [OsCall.createFile Access.GENERIC_WRITE Disposition.CREATE_ALWAYS,
              OsCall.closeHandle,
              OsCall.createFile Access.GENERIC_WRITE Disposition.OPEN_ALWAYS,
              OsCall.setFilePointerEx 0 MoveMethod.FILE_END]
    file_handle := some ⟨Access.GENERIC_WRITE, 0⟩
    read_size := 0
    eof := false
    name := MSIEVE_DEFAULT_SAVEFILE
    buf := blit zeroMem 0 [97, 10, 0]
    buf_off := 0 }

/-- A savefile initialised on memory that `xmalloc` returned holding `"a\n"`,
then opened in Write mode. -/
def dirtyOpen : savefile_t :=
  { disk := some []
    calls := [OsCall.createFile Access.GENERIC_WRITE Disposition.CREATE_ALWAYS]
    file_handle := some ⟨Access.GENERIC_WRITE, 0⟩
    read_size := 0
    eof := false
    name := MSIEVE_DEFAULT_SAVEFILE
    buf := blit zeroMem 0 [97, 10, 0]
    buf_off := 0 }

/-- A file of exactly 65536 bytes whose last line has no terminator: a newline,
then 65535 letters `b`. -/
def tailFile : List Nat := [10] ++ List.replicate 65535 98

/-- A file of exactly 65536 bytes: one line of 65535 letters `a` and its
newline. -/
def fullLine : List Nat := List.replicate 65535 97 ++ [10]

/-- The pending bytes are inside the buffer and none of them is a NUL. -/
def Clean (s : savefile_t) : Prop :=
  s.buf_off < SAVEFILE_BUF_SIZE ∧ ∀ k, k < s.buf_off → s.buf k ≠ 0

/-- The buffer holds a C string of exactly the pending bytes: these are free
of NUL and a NUL follows them, at `buf[buf_off]`. -/
def Terminated (s : savefile_t) : Prop :=
  Clean s ∧ s.buf s.buf_off = 0

/-! ## Theorems -/

theorem bytes_length (mem : Mem) (lo hi : Nat) : (bytes mem lo hi).length = hi - lo := by
  simp [bytes]

theorem bytes_of_le (mem : Mem) {lo hi : Nat} (h : hi ≤ lo) : bytes mem lo hi = [] := by
  have : hi - lo = 0 := by omega
  simp [bytes, this]

theorem bytes_cons (mem : Mem) {lo hi : Nat} (h : lo < hi) :
    bytes mem lo hi = mem lo :: bytes mem (lo + 1) hi := by
  have e : hi - lo = (hi - (lo + 1)) + 1 := by omega
  simp [bytes, e, List.range'_succ]

theorem bytes_congr {m1 m2 : Mem} {lo hi : Nat} (h : ∀ k, lo ≤ k → k < hi → m1 k = m2 k) :
    bytes m1 lo hi = bytes m2 lo hi := by
  unfold bytes
  apply List.map_congr_left
  intro k hk
  rw [List.mem_range'_1] at hk
  exact h k hk.1 (by omega)

theorem bytes_drop (mem : Mem) (lo hi n : Nat) :
    (bytes mem lo hi).drop n = bytes mem (lo + n) hi := by
  induction n generalizing lo with
  | zero => simp
  | succ n ih =>
    by_cases h : lo < hi
    · rw [bytes_cons mem h, List.drop_succ_cons, ih]
      congr 1
      omega
    · rw [bytes_of_le mem (by omega), bytes_of_le mem (by omega)]
      simp

theorem bytes_blit (mem : Mem) (off : Nat) (l : List Nat) :
    bytes (blit mem off l) off (off + l.length) = l := by
  apply List.ext_getElem
  · simp [bytes_length]
  · intro n h1 h2
    simp [bytes, blit]
    simp [bytes_length] at h1
    simp [h1, List.getD_eq_getElem?_getD, List.getElem?_eq_getElem h2]

theorem blit_nil (mem : Mem) (off : Nat) : blit mem off [] = mem := by
  funext n
  simp [blit]

theorem blit_cons (mem : Mem) (off x : Nat) (l : List Nat) :
    blit (store mem off x) (off + 1) l = blit mem off (x :: l) := by
  funext n
  simp only [blit, store, List.length_cons]
  by_cases h1 : n = off
  · subst h1
    simp
  · by_cases h2 : off + 1 ≤ n ∧ n < off + 1 + l.length
    · have h3 : off ≤ n ∧ n < off + (l.length + 1) := by omega
      have h4 : n - off = (n - (off + 1)) + 1 := by omega
      rw [if_pos h2, if_pos h3, h4]
      simp
    · have h3 : ¬ (off ≤ n ∧ n < off + (l.length + 1)) := by omega
      rw [if_neg h2, if_neg h3, if_neg h1]

theorem blit_append (mem : Mem) (off : Nat) (l1 l2 : List Nat) :
    blit (blit mem off l1) (off + l1.length) l2 = blit mem off (l1 ++ l2) := by
  induction l1 generalizing mem off with
  | nil => simp [blit_nil]
  | cons x l1 ih =>
    rw [← blit_cons, List.cons_append, ← blit_cons, ← ih]
    simp [Nat.add_assoc, Nat.add_comm 1]

theorem takeLine_nil (k : Nat) : takeLine k [] = [] := by
  cases k <;> rfl

theorem takeLine_length_le (k : Nat) (l : List Nat) : (takeLine k l).length ≤ k := by
  induction k generalizing l with
  | zero => simp [takeLine]
  | succ k ih =>
    cases l with
    | nil => simp [takeLine]
    | cons c cs =>
      simp only [takeLine]
      split
      · simp
      · simpa using ih cs

theorem takeLine_length_le_length (k : Nat) (l : List Nat) : (takeLine k l).length ≤ l.length := by
  induction k generalizing l with
  | zero => simp [takeLine]
  | succ k ih =>
    cases l with
    | nil => simp [takeLine]
    | cons c cs =>
      simp only [takeLine]
      split
      · simp
      · simpa using ih cs

theorem takeLine_append_drop (k : Nat) (l : List Nat) :
    takeLine k l ++ l.drop (takeLine k l).length = l := by
  induction k generalizing l with
  | zero => simp [takeLine]
  | succ k ih =>
    cases l with
    | nil => simp [takeLine]
    | cons c cs =>
      simp only [takeLine]
      split
      · simp
      · simpa using ih cs

/-- The copy loop in terms of lists: it stores `takeLine (lim - j)` of the staged
bytes from `i` on, and is left through the terminator test exactly when that
piece holds a terminator. -/
theorem copy_loop_spec (sbuf : Mem) (read_size lim : Nat) (fuel i j : Nat) (dest : Mem)
    (hf : read_size - i ≤ fuel) :
    (copy_loop sbuf read_size lim fuel i j dest).dest
        = blit dest j (takeLine (lim - j) (bytes sbuf i read_size)) ∧
    (copy_loop sbuf read_size lim fuel i j dest).hit
        = (takeLine (lim - j) (bytes sbuf i read_size)).any isTerm ∧
    (copy_loop sbuf read_size lim fuel i j dest).i
        + (if (copy_loop sbuf read_size lim fuel i j dest).hit then 1 else 0)
        = i + (takeLine (lim - j) (bytes sbuf i read_size)).length ∧
    (copy_loop sbuf read_size lim fuel i j dest).j
        + (if (copy_loop sbuf read_size lim fuel i j dest).hit then 1 else 0)
        = j + (takeLine (lim - j) (bytes sbuf i read_size)).length := by
  induction fuel generalizing i j dest with
  | zero =>
    have hb : bytes sbuf i read_size = [] := bytes_of_le sbuf (by omega)
    simp [copy_loop, hb, takeLine_nil, blit_nil]
  | succ fuel ih =>
    by_cases hc : i < read_size ∧ j < lim
    · have hb := bytes_cons sbuf hc.1
      have hl : lim - j = (lim - (j + 1)) + 1 := by omega
      by_cases ht : isTerm (sbuf i) = true
      · simp [copy_loop, hc, hb, hl, takeLine, ht, store, ← blit_cons, blit_nil]
      · have ht' : isTerm (sbuf i) = false := by simpa using ht
        have := ih (i + 1) (j + 1) (store dest j (sbuf i)) (by omega)
        obtain ⟨h1, h2, h3, h4⟩ := this
        have hk : takeLine (lim - j) (bytes sbuf i read_size)
            = sbuf i :: takeLine (lim - (j + 1)) (bytes sbuf (i + 1) read_size) := by
          rw [hb, hl]
          simp [takeLine, ht']
        simp only [copy_loop, if_pos hc, store, if_true, ht', Bool.false_eq_true, if_false]
        rw [hk]
        simp only [ht', List.any_cons, Bool.false_or, List.length_cons]
        refine ⟨?_, h2, ?_, ?_⟩
        · rw [← blit_cons]; exact h1
        · rw [h3]; omega
        · rw [h4]; omega
    · have ht : takeLine (lim - j) (bytes sbuf i read_size) = [] := by
        by_cases h1 : i < read_size
        · have : lim - j = 0 := by omega
          simp [this, takeLine]
        · rw [bytes_of_le sbuf (by omega)]; exact takeLine_nil _
      simp [copy_loop, hc, ht, blit_nil]

/-- The two loops and the refill of `savefile_read_line`, in terms of lists. -/
theorem read_line_eq (dest : Mem) (max_len : Nat) (s : savefile_t) :
    savefile_read_line dest max_len s
      = ⟨store (blit dest 0 (lineOf (limit max_len) s)) (lineOf (limit max_len) s).length 0,
         (lineOf (limit max_len) s).length, stateOf (limit max_len) s⟩ := by
  obtain ⟨h1, h2, h3, h4⟩ := copy_loop_spec s.buf s.read_size (limit max_len)
    (s.read_size - s.buf_off) s.buf_off 0 dest (Nat.le_refl _)
  simp only [Nat.sub_zero, Nat.zero_add] at h1 h2 h3 h4
  unfold savefile_read_line lineOf stateOf
  simp only [staged]
  by_cases hh : (copy_loop s.buf s.read_size (limit max_len) (s.read_size - s.buf_off)
      s.buf_off 0 dest).hit = true
  · rw [hh] at h2 h3 h4
    simp only [if_true] at h3 h4
    simp only [hh, if_true, ← h2, h1, h3, h4]
  · have hh' : (copy_loop s.buf s.read_size (limit max_len) (s.read_size - s.buf_off)
      s.buf_off 0 dest).hit = false := by simpa using hh
    rw [hh'] at h2 h3 h4
    simp only [Bool.false_eq_true, if_false, Nat.add_zero] at h3 h4
    simp only [hh', Bool.false_eq_true, if_false, ← h2, h1, h3, h4]
    generalize hs2 : refill { s with buf_off := s.buf_off
      + (takeLine (limit max_len) (bytes s.buf s.buf_off s.read_size)).length } = s2
    generalize ht1 : takeLine (limit max_len) (bytes s.buf s.buf_off s.read_size) = t1
    obtain ⟨g1, g2, g3, g4⟩ := copy_loop_spec s2.buf s2.read_size (limit max_len)
      (s2.read_size - s2.buf_off) s2.buf_off t1.length (blit dest 0 t1) (Nat.le_refl _)
    have e1 : ∀ c : Copy, (if c.hit = true then c.i + 1 else c.i)
        = c.i + (if c.hit = true then 1 else 0) := by
      intro c; split <;> rfl
    have e2 : ∀ c : Copy, (if c.hit = true then c.j + 1 else c.j)
        = c.j + (if c.hit = true then 1 else 0) := by
      intro c; split <;> rfl
    rw [e1, e2, g1, g3, g4]
    have := blit_append dest 0 t1 (takeLine (limit max_len - t1.length)
      (bytes s2.buf s2.buf_off s2.read_size))
    simp only [Nat.zero_add] at this
    rw [this]
    simp [List.length_append]

/-- The string handed back is `lineOf`. -/
theorem read_line_line (dest : Mem) (max_len : Nat) (s : savefile_t) :
    (savefile_read_line dest max_len s).line = lineOf (limit max_len) s := by
  rw [read_line_eq]
  simp only [ReadResult.line]
  have h := bytes_blit dest 0 (lineOf (limit max_len) s)
  simp only [Nat.zero_add] at h
  refine Eq.trans (bytes_congr ?_) h
  intro k _ hk
  have : k ≠ (lineOf (limit max_len) s).length := by omega
  simp [store, this]

/-- The savefile left is `stateOf`. -/
theorem read_line_state (dest : Mem) (max_len : Nat) (s : savefile_t) :
    (savefile_read_line dest max_len s).s = stateOf (limit max_len) s := by
  rw [read_line_eq]

theorem takeLine_zero (l : List Nat) : takeLine 0 l = [] := by
  cases l <;> rfl

theorem takeLine_length_of_clean (k : Nat) (l : List Nat)
    (h : (takeLine k l).any isTerm = false) : (takeLine k l).length = min k l.length := by
  induction k generalizing l with
  | zero => simp [takeLine_zero]
  | succ k ih =>
    cases l with
    | nil => simp [takeLine]
    | cons c cs =>
      by_cases hc : isTerm c = true
      · simp [takeLine, hc] at h
      · have hc' : isTerm c = false := by simpa using hc
        simp only [takeLine, hc', Bool.false_eq_true, if_false, List.any_cons, Bool.false_or] at h
        simp only [takeLine, hc', Bool.false_eq_true, if_false, List.length_cons, ih cs h]
        omega

theorem takeLine_append (k : Nat) (l x : List Nat) :
    takeLine k (l ++ x)
      = takeLine k l ++ (if (takeLine k l).any isTerm then [] else takeLine (k - l.length) x) := by
  induction k generalizing l with
  | zero => simp [takeLine_zero]
  | succ k ih =>
    cases l with
    | nil => simp [takeLine]
    | cons c cs =>
      by_cases hc : isTerm c = true
      · simp [takeLine, hc]
      · have hc' : isTerm c = false := by simpa using hc
        simp [takeLine, hc', ih cs]

theorem takeLine_ne_nil (k : Nat) (l : List Nat) (hk : 1 ≤ k) (hl : l ≠ []) :
    takeLine k l ≠ [] := by
  obtain ⟨k, rfl⟩ : ∃ n, k = n + 1 := ⟨k - 1, by omega⟩
  cases l with
  | nil => exact absurd rfl hl
  | cons c cs =>
    simp only [takeLine]
    split <;> simp

theorem staged_length (s : savefile_t) : (staged s).length = s.read_size - s.buf_off := by
  simp [staged, bytes_length]

theorem staged_advance (s : savefile_t) (n : Nat) :
    staged { s with buf_off := s.buf_off + n } = (staged s).drop n := by
  simp [staged, bytes_drop]

theorem ahead_advance (s : savefile_t) (n : Nat) :
    ahead { s with buf_off := n } = ahead s := rfl

theorem readInv_advance {s : savefile_t} {data : List Nat} (h : ReadInv s data) (n : Nat)
    (hn : n ≤ (staged s).length) : ReadInv { s with buf_off := s.buf_off + n } data := by
  rw [staged_length] at hn
  have := h.off_le
  exact ⟨h.disk, h.handle, by simp only; omega, h.size_le⟩

theorem refill_noop (s : savefile_t) (h : ¬ (s.buf_off = s.read_size ∧ s.eof = false)) :
    refill s = s := by
  simp only [refill, if_neg h]

theorem buf_size_pos : 0 < SAVEFILE_BUF_SIZE := by decide

/-- The refill on a state whose staging buffer has run out before the end of
the file was seen. -/
theorem refill_spec {s : savefile_t} {data : List Nat} (h : ReadInv s data)
    (h1 : s.buf_off = s.read_size) (h2 : s.eof = false) :
    ReadInv (refill s) data ∧ staged (refill s) = (ahead s).take SAVEFILE_BUF_SIZE ∧
      ahead (refill s) = (ahead s).drop SAVEFILE_BUF_SIZE ∧ (refill s).buf_off = 0 ∧
      (refill s).read_size = ((ahead s).take SAVEFILE_BUF_SIZE).length ∧
      ((refill s).eof = true ↔ (ahead s).length < SAVEFILE_BUF_SIZE) := by
  obtain ⟨pos, hh, hle, he1, he2⟩ := h.handle
  have hd := h.disk
  have hah : ahead s = data.drop pos := by simp [ahead, hh, hd]
  have hch : readChunk s SAVEFILE_BUF_SIZE = (data.drop pos).take SAVEFILE_BUF_SIZE := by
    simp [readChunk, hh, hd]
  have hlen : ((data.drop pos).take SAVEFILE_BUF_SIZE).length
      = min SAVEFILE_BUF_SIZE (data.length - pos) := by simp
  have hr : refill s = { s with
      calls := s.calls ++ [OsCall.readFile SAVEFILE_BUF_SIZE
        ((data.drop pos).take SAVEFILE_BUF_SIZE).length],
      buf := blit s.buf 0 ((data.drop pos).take SAVEFILE_BUF_SIZE),
      file_handle := some ⟨Access.GENERIC_READ,
        pos + ((data.drop pos).take SAVEFILE_BUF_SIZE).length⟩,
      read_size := ((data.drop pos).take SAVEFILE_BUF_SIZE).length,
      buf_off := 0,
      eof := if ((data.drop pos).take SAVEFILE_BUF_SIZE).length < SAVEFILE_BUF_SIZE
        then true else s.eof } := by
    simp only [refill, h1, h2, and_self, if_true, ReadFile, hch, hh]
  rw [hr, hah]
  refine ⟨⟨hd, ⟨_, rfl, ?_, ?_, ?_⟩, Nat.zero_le _, ?_⟩, ?_, ?_, rfl, rfl, ?_⟩
  · simp only [hlen]; omega
  · simp only [hlen, h2]
    intro he
    split at he
    · omega
    · simp at he
  · simp only [hlen, h2]
    intro he
    split at he
    · simp at he
    · have : min SAVEFILE_BUF_SIZE (data.length - pos) = SAVEFILE_BUF_SIZE := by omega
      rw [this]
      exact Nat.dvd_add (he2 h2) (Nat.dvd_refl _)
  · simp only [hlen]; omega
  · have := bytes_blit s.buf 0 ((data.drop pos).take SAVEFILE_BUF_SIZE)
    simpa [staged] using this
  · simp only [ahead, hd, List.drop_drop, hlen]
    by_cases hc : SAVEFILE_BUF_SIZE ≤ data.length - pos
    · rw [Nat.min_eq_left hc, Nat.add_comm]
    · rw [Nat.min_eq_right (by omega)]
      rw [List.drop_of_length_le (by omega), List.drop_of_length_le (by omega)]
  · simp only [hlen, h2, List.length_drop]
    constructor
    · intro he
      split at he
      · omega
      · simp at he
    · intro he
      rw [if_pos (by omega)]

/-- The iteration bound never cuts a copy loop short: when the loop is left
without a terminator, its own condition `i < read_size && j < lim` is false. -/
theorem copy_loop_exit (sbuf : Mem) (read_size lim : Nat) (fuel i j : Nat) (dest : Mem)
    (hf : read_size - i ≤ fuel)
    (hh : (copy_loop sbuf read_size lim fuel i j dest).hit = false) :
    ¬ ((copy_loop sbuf read_size lim fuel i j dest).i < read_size ∧
      (copy_loop sbuf read_size lim fuel i j dest).j < lim) := by
  obtain ⟨_, h2, h3, h4⟩ := copy_loop_spec sbuf read_size lim fuel i j dest hf
  rw [hh] at h2 h3 h4
  have hmin := takeLine_length_of_clean (lim - j) (bytes sbuf i read_size) h2.symm
  rw [bytes_length] at hmin
  simp only [Bool.false_eq_true, if_false, Nat.add_zero] at h3 h4
  omega

/-- One `savefile_read_line` keeps the reading invariant and hands back a piece
of the unread bytes from their front: nothing is skipped and nothing repeated. -/
theorem read_line_inv {s : savefile_t} {data : List Nat} (h : ReadInv s data) (lim : Nat) :
    ReadInv (stateOf lim s) data ∧ unread s = lineOf lim s ++ unread (stateOf lim s) := by
  have hsplit := takeLine_append_drop lim (staged s)
  have hlen1 := takeLine_length_le_length lim (staged s)
  have hinv1 := readInv_advance h _ hlen1
  unfold stateOf lineOf
  simp only
  by_cases hh : (takeLine lim (staged s)).any isTerm = true
  · simp only [hh, if_true]
    refine ⟨hinv1, ?_⟩
    simp only [unread, staged_advance, ahead_advance]
    rw [← List.append_assoc, hsplit]
  · simp only [hh, Bool.false_eq_true, if_false]
    by_cases hr : s.buf_off + (takeLine lim (staged s)).length = s.read_size ∧ s.eof = false
    · obtain ⟨g1, g2, g3, g4, g5, g6⟩ := refill_spec hinv1 hr.1 hr.2
      generalize refill { s with buf_off := s.buf_off + (takeLine lim (staged s)).length } = s2
        at g1 g2 g3 g4 g5 g6 ⊢
      have hsplit2 := takeLine_append_drop (lim - (takeLine lim (staged s)).length) (staged s2)
      have hlen2 := takeLine_length_le_length (lim - (takeLine lim (staged s)).length) (staged s2)
      refine ⟨readInv_advance g1 _ hlen2, ?_⟩
      have hfull : (staged s).drop (takeLine lim (staged s)).length = [] := by
        apply List.drop_of_length_le
        rw [staged_length]
        have := h.off_le
        omega
      rw [hfull, List.append_nil] at hsplit
      have ha1 : ahead { s with buf_off := s.buf_off + (takeLine lim (staged s)).length }
          = ahead s := rfl
      rw [ha1] at g2 g3
      simp only [unread, staged_advance, ahead_advance, List.append_assoc]
      rw [← List.append_assoc (takeLine (lim - (takeLine lim (staged s)).length) (staged s2)),
        hsplit2, g2, g3, List.take_append_drop, hsplit]
    · rw [refill_noop _ hr]
      have hclean : (takeLine lim (staged s)).any isTerm = false := by simpa using hh
      have hmin := takeLine_length_of_clean lim (staged s) hclean
      have ht2 : takeLine (lim - (takeLine lim (staged s)).length)
          (staged { s with buf_off := s.buf_off + (takeLine lim (staged s)).length }) = [] := by
        rw [staged_advance]
        by_cases hc : lim ≤ (staged s).length
        · rw [hmin, Nat.min_eq_left hc, Nat.sub_self]
          exact takeLine_zero _
        · rw [hmin, Nat.min_eq_right (by omega), List.drop_of_length_le (Nat.le_refl _)]
          exact takeLine_nil _
      rw [ht2]
      simp only [List.length_nil, Nat.add_zero, List.append_nil]
      refine ⟨hinv1, ?_⟩
      simp only [unread, staged_advance, ahead_advance]
      rw [← List.append_assoc, hsplit]

/-- The string handed back is the first line of the window, cut to `lim`
bytes. -/
theorem lineOf_eq_takeLine {s : savefile_t} {data : List Nat} (h : ReadInv s data) (lim : Nat) :
    lineOf lim s = takeLine lim (window s) := by
  unfold lineOf window
  simp only
  rw [takeLine_append]
  by_cases hh : (takeLine lim (staged s)).any isTerm = true
  · simp only [hh, if_true, List.append_nil]
  · simp only [hh, Bool.false_eq_true, if_false]
    congr 1
    have hclean : (takeLine lim (staged s)).any isTerm = false := by simpa using hh
    have hmin := takeLine_length_of_clean lim (staged s) hclean
    have hlen1 := takeLine_length_le_length lim (staged s)
    have hinv1 := readInv_advance h _ hlen1
    have hoff := h.off_le
    have hsl := staged_length s
    by_cases hr : s.buf_off + (takeLine lim (staged s)).length = s.read_size ∧ s.eof = false
    · obtain ⟨_, g2, _⟩ := refill_spec hinv1 hr.1 hr.2
      rw [g2, ahead_advance]
      have : (takeLine lim (staged s)).length = (staged s).length := by omega
      simp [hr.2, this]
    · rw [refill_noop _ hr, staged_advance]
      by_cases hc : lim ≤ (staged s).length
      · rw [hmin, Nat.min_eq_left hc, Nat.sub_self]
        have : lim - (staged s).length = 0 := by omega
        rw [this, takeLine_zero, takeLine_zero]
      · rw [hmin, Nat.min_eq_right (by omega), List.drop_of_length_le (Nat.le_refl _),
          takeLine_nil]
        have he : s.eof = true := by
          by_contra hne
          apply hr
          refine ⟨?_, by simpa using hne⟩
          rw [hmin, Nat.min_eq_right (by omega), hsl]
          omega
        simp [he, takeLine_nil]

/-- The function `savefile_eof` answers true only when nothing is left unread. -/
theorem unread_nil_of_eof {s : savefile_t} {data : List Nat} (h : ReadInv s data)
    (he : savefile_eof s = true) : unread s = [] := by
  simp only [savefile_eof, Bool.and_eq_true, decide_eq_true_eq] at he
  obtain ⟨pos, hh, _, he1, _⟩ := h.handle
  have hs : staged s = [] := by
    apply List.eq_nil_of_length_eq_zero
    rw [staged_length]; omega
  have ha : ahead s = [] := by
    simp only [ahead, hh, h.disk]
    rw [he1 he.2]
    simp
  simp [unread, hs, ha]

/-- On a file whose length is no multiple of the buffer size, `savefile_eof`
answers true as soon as nothing is left unread. -/
theorem eof_of_unread_nil {s : savefile_t} {data : List Nat} (h : ReadInv s data)
    (hC : data.length % SAVEFILE_BUF_SIZE ≠ 0) (hu : unread s = []) : savefile_eof s = true := by
  obtain ⟨pos, hh, hle, _, he2⟩ := h.handle
  simp only [unread, List.append_eq_nil] at hu
  have hs := staged_length s
  rw [hu.1] at hs
  have ha : data.drop pos = [] := by
    have := hu.2
    simpa [ahead, hh, h.disk] using this
  have hp : pos = data.length := by
    have := congrArg List.length ha
    simp at this
    omega
  have hoff := h.off_le
  simp only [savefile_eof, Bool.and_eq_true, decide_eq_true_eq]
  refine ⟨by simp at hs; omega, ?_⟩
  by_contra hne
  have hd := he2 (by simpa using hne)
  rw [hp] at hd
  exact hC (Nat.mod_eq_zero_of_dvd hd)

/-- A call that hands back the empty string, with room for at least one byte,
leaves `savefile_eof` true. -/
theorem eof_of_lineOf_nil {s : savefile_t} {data : List Nat} (h : ReadInv s data) (lim : Nat)
    (hl : 1 ≤ lim) (hn : lineOf lim s = []) : savefile_eof (stateOf lim s) = true := by
  have hw := lineOf_eq_takeLine h lim
  rw [hn] at hw
  have hwn : window s = [] := by
    by_contra hne
    exact takeLine_ne_nil lim _ hl hne hw.symm
  simp only [window, List.append_eq_nil] at hwn
  have hs := staged_length s
  rw [hwn.1] at hs
  have hoff := h.off_le
  have hoff' : s.buf_off = s.read_size := by simp at hs; omega
  unfold stateOf
  simp only [hwn.1, takeLine_nil, List.any_nil, Bool.false_eq_true, if_false, List.length_nil,
    Nat.add_zero]
  have hs0 : ({ s with buf_off := s.buf_off } : savefile_t) = s := rfl
  rw [hs0]
  by_cases he : s.eof = true
  · rw [refill_noop s (by simp [he])]
    simp [savefile_eof, hwn.1, takeLine_nil, hoff', he]
  · have he' : s.eof = false := by simpa using he
    obtain ⟨_, g2, _, g4, g5, g6⟩ := refill_spec h hoff' he'
    have hch : (ahead s).take SAVEFILE_BUF_SIZE = [] := by simpa [he'] using hwn.2
    have hlt : (ahead s).length < SAVEFILE_BUF_SIZE := by
      have hl0 := congrArg List.length hch
      rw [List.length_take, List.length_nil] at hl0
      have := buf_size_pos
      omega
    rw [g2, hch, takeLine_nil]
    simp [savefile_eof, g4, g5, hch, g6.2 hlt]

theorem endsLine_iff (l : List Nat) :
    endsLine l = true ↔ ∃ body c, l = body ++ [c] ∧ isTerm c = true ∧ ∀ x ∈ body, isTerm x = false := by
  constructor
  · intro h
    rcases List.eq_nil_or_concat l with rfl | ⟨body, c, rfl⟩
    · simp [endsLine] at h
    · refine ⟨body, c, by simp, ?_⟩
      simpa [endsLine] using h
  · rintro ⟨body, c, rfl, hc, hb⟩
    simp [endsLine, hc]
    exact hb

theorem endsLine_of_isLine {l : List Nat} (h : isLine l = true) : endsLine l = true := by
  rcases List.eq_nil_or_concat l with rfl | ⟨body, c, rfl⟩
  · simp [isLine] at h
  · simp [isLine] at h
    obtain ⟨rfl, hb⟩ := h
    rw [endsLine_iff]
    exact ⟨body, 10, by simp, by decide, hb⟩

theorem takeLine_of_clean (k : Nat) (l : List Nat) (h : ∀ x ∈ l, isTerm x = false) :
    takeLine k l = l.take k := by
  induction k generalizing l with
  | zero => simp [takeLine_zero]
  | succ k ih =>
    cases l with
    | nil => simp [takeLine]
    | cons c cs =>
      have hc : isTerm c = false := h c (by simp)
      simp [takeLine, hc, ih cs (fun x hx => h x (by simp [hx]))]

theorem takeLine_whole (k : Nat) (body : List Nat) (c : Nat) (x : List Nat)
    (hc : isTerm c = true) (hb : ∀ y ∈ body, isTerm y = false) (hk : body.length + 1 ≤ k) :
    takeLine k (body ++ [c] ++ x) = body ++ [c] := by
  induction body generalizing k with
  | nil =>
    obtain ⟨k, rfl⟩ : ∃ n, k = n + 1 := ⟨k - 1, by simp at hk; omega⟩
    simp [takeLine, hc]
  | cons b body ih =>
    obtain ⟨k, rfl⟩ : ∃ n, k = n + 1 := ⟨k - 1, by simp at hk; omega⟩
    have hb0 : isTerm b = false := hb b (by simp)
    have := ih k (fun y hy => hb y (by simp [hy])) (by simp at hk; omega)
    have e : (b :: body) ++ [c] ++ x = b :: (body ++ [c] ++ x) := rfl
    rw [e]
    simp only [takeLine, hb0, Bool.false_eq_true, if_false]
    rw [this]
    rfl

theorem takeLine_of_endsLine (k : Nat) (L x : List Nat) (hL : endsLine L = true)
    (hk : L.length ≤ k) : takeLine k (L ++ x) = L := by
  obtain ⟨body, c, rfl, hc, hb⟩ := (endsLine_iff L).1 hL
  exact takeLine_whole k body c x hc hb (by simpa using hk)

theorem ahead_nil_of_eof {s : savefile_t} {data : List Nat} (h : ReadInv s data)
    (he : s.eof = true) : ahead s = [] := by
  obtain ⟨pos, hh, _, he1, _⟩ := h.handle
  simp only [ahead, hh, h.disk]
  rw [he1 he]
  simp

/-- The window is the front of the unread bytes: what is staged and one
buffer more. -/
theorem window_eq {s : savefile_t} {data : List Nat} (h : ReadInv s data) :
    window s = (unread s).take ((staged s).length + SAVEFILE_BUF_SIZE) := by
  unfold window unread
  rw [List.take_append_eq_append_take, List.take_of_length_le (Nat.le_add_right _ _)]
  congr 1
  by_cases he : s.eof = true
  · simp [he, ahead_nil_of_eof h he]
  · simp [he]

/-- A whole line that fits the destination and ends within the staged bytes
plus one refill is handed back whole, and the next read starts after it. -/
theorem read_line_whole {s : savefile_t} {data : List Nat} (h : ReadInv s data) (lim : Nat)
    (L tail : List Nat) (hu : unread s = L ++ tail) (hL : endsLine L = true)
    (hfit : L.length ≤ lim) (hwin : L.length ≤ (staged s).length + SAVEFILE_BUF_SIZE) :
    lineOf lim s = L ∧ unread (stateOf lim s) = tail ∧ ReadInv (stateOf lim s) data := by
  obtain ⟨hinv, hcons⟩ := read_line_inv h lim
  have hline : lineOf lim s = L := by
    rw [lineOf_eq_takeLine h, window_eq h, hu, List.take_append_eq_append_take,
      List.take_of_length_le hwin]
    exact takeLine_of_endsLine lim L _ hL hfit
  refine ⟨hline, ?_, hinv⟩
  rw [hline, hu] at hcons
  exact (List.append_cancel_left hcons).symm

theorem limit_of_pos {max_len : Nat} (h : 1 ≤ max_len) : limit max_len = max_len - 1 := by
  simp only [limit]
  rw [if_neg (by omega)]

/-- Successive reads keep the invariant and hand back, in order, a front part
of the unread bytes. -/
theorem read_lines_inv (max_len : Nat) (n : Nat) (dest : Mem) {s : savefile_t} {data : List Nat}
    (h : ReadInv s data) :
    ReadInv (read_lines dest max_len n s).2 data ∧
      unread s = (read_lines dest max_len n s).1.flatten ++ unread (read_lines dest max_len n s).2 := by
  induction n generalizing dest s with
  | zero => simp [read_lines, h]
  | succ n ih =>
    obtain ⟨hinv, hcons⟩ := read_line_inv h (limit max_len)
    rw [← read_line_state dest, ← read_line_line dest] at hcons
    rw [← read_line_state dest] at hinv
    obtain ⟨h1, h2⟩ := ih (savefile_read_line dest max_len s).dest hinv
    simp only [read_lines, List.flatten_cons, List.append_assoc]
    exact ⟨h1, by rw [← h2]; exact hcons⟩

/-- Successive reads of whole lines that fit hand them back one per call. -/
theorem read_lines_whole (max_len : Nat) (lines : List (List Nat)) (dest : Mem) {s : savefile_t}
    {data : List Nat} (h : ReadInv s data) (tail : List Nat)
    (hu : unread s = lines.flatten ++ tail)
    (hl : ∀ l ∈ lines, endsLine l = true ∧ l.length ≤ limit max_len ∧ l.length ≤ SAVEFILE_BUF_SIZE) :
    (read_lines dest max_len lines.length s).1 = lines ∧
      unread (read_lines dest max_len lines.length s).2 = tail ∧
      ReadInv (read_lines dest max_len lines.length s).2 data := by
  induction lines generalizing dest s with
  | nil => simpa [read_lines, h] using hu
  | cons l ls ih =>
    obtain ⟨hl1, hl2, hl3⟩ := hl l (by simp)
    rw [List.flatten_cons, List.append_assoc] at hu
    obtain ⟨g1, g2, g3⟩ := read_line_whole h (limit max_len) l _ hu hl1 hl2 (by omega)
    rw [← read_line_state dest] at g2 g3
    rw [← read_line_line dest] at g1
    obtain ⟨k1, k2, k3⟩ := ih (savefile_read_line dest max_len s).dest g3 g2
      (fun x hx => hl x (by simp [hx]))
    simp only [read_lines, List.length_cons]
    exact ⟨by rw [g1, k1], k2, k3⟩

theorem read_until_eof_of_eof (dest : Mem) (max_len fuel : Nat) (s : savefile_t)
    (he : savefile_eof s = true) : read_until_eof dest max_len fuel s = some ([], s) := by
  cases fuel <;> simp [read_until_eof, he]

/-- Reading until `savefile_eof` ends within one call per unread byte and one
more, and hands back every unread byte in order. -/
theorem read_until_eof_total (max_len : Nat) (hm : 2 ≤ max_len) (fuel : Nat) (dest : Mem)
    {s : savefile_t} {data : List Nat} (h : ReadInv s data)
    (hf : (unread s).length + 1 ≤ fuel) :
    ∃ pieces t, read_until_eof dest max_len fuel s = some (pieces, t) ∧
      pieces.flatten = unread s ∧ savefile_eof t = true := by
  induction fuel generalizing dest s with
  | zero => omega
  | succ fuel ih =>
    by_cases he : savefile_eof s = true
    · exact ⟨[], s, read_until_eof_of_eof _ _ _ _ he, by simp [unread_nil_of_eof h he], he⟩
    · obtain ⟨hinv, hcons⟩ := read_line_inv h (limit max_len)
      have hlim : 1 ≤ limit max_len := by rw [limit_of_pos (by omega)]; omega
      have hprog := eof_of_lineOf_nil h (limit max_len) hlim
      rw [← read_line_state dest, ← read_line_line dest] at hcons hprog
      rw [← read_line_state dest] at hinv
      simp only [read_until_eof, he, Bool.false_eq_true, if_false]
      by_cases hn : (savefile_read_line dest max_len s).line = []
      · have he2 := hprog hn
        rw [read_until_eof_of_eof _ _ _ _ he2]
        refine ⟨_, _, rfl, ?_, he2⟩
        rw [hcons, hn, unread_nil_of_eof hinv he2]
        simp
      · have hlen : ((savefile_read_line dest max_len s).line).length ≠ 0 := by
          simpa using hn
        have hl := congrArg List.length hcons
        rw [List.length_append] at hl
        obtain ⟨pieces, t, g1, g2, g3⟩ := ih (savefile_read_line dest max_len s).dest hinv
          (by omega)
        rw [g1]
        refine ⟨_, _, rfl, ?_, g3⟩
        rw [List.flatten_cons, g2, ← hcons]

/-- Opening an existing file for reading: the call succeeds and leaves a fresh
reading state on the whole content. -/
theorem open_read_spec (s0 : savefile_t) (data : List Nat) (h0 : s0.disk = some data) :
    ∃ s, savefile_open s0 SAVEFILE_READ = Except.ok s ∧ ReadInv s data ∧ unread s = data ∧
      s.read_size = 0 ∧ s.buf_off = 0 ∧ s.eof = false ∧
      s.file_handle = some ⟨Access.GENERIC_READ, 0⟩ ∧ s.disk = some data := by
  refine ⟨{ s0 with
      calls := s0.calls ++ [OsCall.createFile Access.GENERIC_READ Disposition.OPEN_EXISTING],
      file_handle := some ⟨Access.GENERIC_READ, 0⟩,
      read_size := 0, eof := false, buf_off := 0 }, ?_, ?_, ?_, rfl, rfl, rfl, rfl, h0⟩
  · simp [savefile_open, SAVEFILE_READ, CreateFile, h0]
  · exact ⟨h0, ⟨0, rfl, Nat.zero_le _, by simp, by simp⟩, Nat.le_refl _, Nat.zero_le _⟩
  · simp [unread, staged, ahead, h0, bytes]

theorem freshRead_inv (data : List Nat) : ReadInv (freshRead data) data :=
  ⟨rfl, ⟨0, rfl, Nat.zero_le _, by simp [freshRead], by simp [freshRead]⟩, Nat.le_refl _,
    Nat.zero_le _⟩

theorem freshRead_unread (data : List Nat) : unread (freshRead data) = data := by
  simp [unread, staged, ahead, freshRead, bytes]

theorem freshRead_open (data : List Nat) :
    savefile_open (savefile_init (some data) zeroMem none) SAVEFILE_READ
      = Except.ok (freshRead data) := rfl

theorem takeLine_dropLast_clean (k : Nat) (l : List Nat) :
    ∀ c ∈ (takeLine k l).dropLast, isTerm c = false := by
  induction k generalizing l with
  | zero => simp [takeLine_zero]
  | succ k ih =>
    cases l with
    | nil => simp [takeLine]
    | cons b cs =>
      by_cases hb : isTerm b = true
      · simp [takeLine, hb]
      · have hb' : isTerm b = false := by simpa using hb
        simp only [takeLine, hb', Bool.false_eq_true, if_false]
        cases ht : takeLine k cs with
        | nil => simp
        | cons y ys =>
          intro c hc
          rw [List.dropLast_cons_of_ne_nil (by simp)] at hc
          rcases List.mem_cons.1 hc with rfl | hc
          · exact hb'
          · exact ih cs c (by rw [ht]; exact hc)

theorem lineOf_length_le (lim : Nat) (s : savefile_t) : (lineOf lim s).length ≤ lim := by
  unfold lineOf
  simp only
  have h1 := takeLine_length_le lim (staged s)
  split
  · exact h1
  · rw [List.length_append]
    have h2 := takeLine_length_le (lim - (takeLine lim (staged s)).length)
      (staged (refill { s with buf_off := s.buf_off + (takeLine lim (staged s)).length }))
    omega

theorem lineOf_dropLast_clean (lim : Nat) (s : savefile_t) :
    ∀ c ∈ (lineOf lim s).dropLast, isTerm c = false := by
  unfold lineOf
  simp only
  by_cases hh : (takeLine lim (staged s)).any isTerm = true
  · simp only [hh, if_true]
    exact takeLine_dropLast_clean _ _
  · simp only [hh, Bool.false_eq_true, if_false]
    have hclean : ∀ x ∈ takeLine lim (staged s), isTerm x = false := by
      intro x hx
      by_contra hne
      exact hh (List.any_eq_true.2 ⟨x, hx, by simpa using hne⟩)
    have hclean2 := takeLine_dropLast_clean (lim - (takeLine lim (staged s)).length)
      (staged (refill { s with buf_off := s.buf_off + (takeLine lim (staged s)).length }))
    generalize takeLine (lim - (takeLine lim (staged s)).length)
      (staged (refill { s with buf_off := s.buf_off + (takeLine lim (staged s)).length })) = t2
      at hclean2 ⊢
    intro c hc
    by_cases ht2 : t2 = []
    · subst ht2
      rw [List.append_nil] at hc
      exact hclean c (List.mem_of_mem_dropLast hc)
    · rw [List.dropLast_append_of_ne_nil _ ht2] at hc
      rcases List.mem_append.1 hc with hc | hc
      · exact hclean c hc
      · exact hclean2 c hc

/-- C2: from a fresh open in Read mode, for every file content and every
`max_len >= 2`, the loop that calls `savefile_read_line` until `savefile_eof`
is true ends (within one call per byte of the file and one more), and the
strings it hands back, concatenated, are the file content: no byte skipped,
none repeated. -/
theorem read_until_eof_delivers_file (s0 : savefile_t) (content : List Nat)
    (h0 : s0.disk = some content) (dest : Mem) (max_len : Nat) (hm : 2 ≤ max_len)
    (fuel : Nat) (hf : content.length + 1 ≤ fuel) :
    ∃ s pieces t, savefile_open s0 SAVEFILE_READ = Except.ok s ∧
      read_until_eof dest max_len fuel s = some (pieces, t) ∧
      pieces.flatten = content ∧ savefile_eof t = true := by
  obtain ⟨s, hs, hinv, hu, _⟩ := open_read_spec s0 content h0
  obtain ⟨pieces, t, g1, g2, g3⟩ :=
    read_until_eof_total max_len hm fuel dest hinv (by rw [hu]; exact hf)
  exact ⟨s, pieces, t, hs, g1, by rw [g2, hu], g3⟩

/-- Witness of C2: the file `"ab\nc"` read through a three-byte destination. -/
theorem read_until_eof_delivers_file_witness :
    (savefile_init (some [97, 98, 10, 99]) zeroMem none).disk = some [97, 98, 10, 99] ∧
    2 ≤ 3 ∧ [97, 98, 10, 99].length + 1 ≤ 5 ∧
    ∃ s pieces t, savefile_open (savefile_init (some [97, 98, 10, 99]) zeroMem none)
        SAVEFILE_READ = Except.ok s ∧
      read_until_eof zeroMem 3 5 s = some (pieces, t) ∧
      pieces.flatten = [97, 98, 10, 99] ∧ savefile_eof t = true :=
  ⟨rfl, by decide, by decide,
    read_until_eof_delivers_file _ _ rfl zeroMem 3 (by decide) 5 (by decide)⟩

/-- C4: for every state and every `max_len >= 1`, `savefile_read_line` stores at
most `max_len - 1` content bytes, stores a NUL right after them, leaves the
caller's buffer as it was at every index past that NUL and so at every index
`>= max_len`, and no byte of the result ahead of its last one is a
terminator. -/
theorem read_line_output_bound (dest : Mem) (max_len : Nat) (s : savefile_t)
    (hm : 1 ≤ max_len) :
    (savefile_read_line dest max_len s).len ≤ max_len - 1 ∧
    (savefile_read_line dest max_len s).dest (savefile_read_line dest max_len s).len = 0 ∧
    (∀ k, (savefile_read_line dest max_len s).len < k →
      (savefile_read_line dest max_len s).dest k = dest k) ∧
    (∀ k, max_len ≤ k → (savefile_read_line dest max_len s).dest k = dest k) ∧
    (∀ c ∈ (savefile_read_line dest max_len s).line.dropLast, isTerm c = false) := by
  have hlen := lineOf_length_le (limit max_len) s
  rw [limit_of_pos hm] at hlen
  have hframe : ∀ k, (lineOf (max_len - 1) s).length < k →
      store (blit dest 0 (lineOf (max_len - 1) s)) (lineOf (max_len - 1) s).length 0 k
        = dest k := by
    intro k hk
    have h1 : k ≠ (lineOf (max_len - 1) s).length := by omega
    have h2 : ¬ (0 ≤ k ∧ k < 0 + (lineOf (max_len - 1) s).length) := by omega
    simp only [store, blit, if_neg h1, if_neg h2]
  refine ⟨?_, ?_, ?_, ?_, ?_⟩
  · rw [read_line_eq, limit_of_pos hm]
    exact hlen
  · rw [read_line_eq]
    simp [store]
  · rw [read_line_eq, limit_of_pos hm]
    exact hframe
  · rw [read_line_eq, limit_of_pos hm]
    intro k hk
    exact hframe k (by omega)
  · rw [read_line_line]
    exact lineOf_dropLast_clean _ _

/-- Witness of C4: a fresh reading state on `"ab\nc"` and a three-byte
destination. -/
theorem read_line_output_bound_witness :
    1 ≤ 3 ∧
    (savefile_read_line zeroMem 3 (freshRead [97, 98, 10, 99])).len ≤ 3 - 1 ∧
    (savefile_read_line zeroMem 3 (freshRead [97, 98, 10, 99])).dest
      (savefile_read_line zeroMem 3 (freshRead [97, 98, 10, 99])).len = 0 ∧
    (∀ k, (savefile_read_line zeroMem 3 (freshRead [97, 98, 10, 99])).len < k →
      (savefile_read_line zeroMem 3 (freshRead [97, 98, 10, 99])).dest k = zeroMem k) ∧
    (∀ k, 3 ≤ k → (savefile_read_line zeroMem 3 (freshRead [97, 98, 10, 99])).dest k
      = zeroMem k) ∧
    (∀ c ∈ (savefile_read_line zeroMem 3 (freshRead [97, 98, 10, 99])).line.dropLast,
      isTerm c = false) :=
  ⟨by decide, read_line_output_bound zeroMem 3 (freshRead [97, 98, 10, 99]) (by decide)⟩

theorem longLine_eq : longLine = List.replicate 65536 97 ++ [10] := by
  unfold longLine
  rfl

theorem longLine_length : longLine.length = 65537 := by
  rw [longLine_eq, List.length_append, List.length_replicate]
  rfl

theorem longLine_ends : endsLine longLine = true := by
  rw [endsLine_iff]
  refine ⟨List.replicate 65536 97, 10, longLine_eq, by decide, ?_⟩
  intro x hx
  rw [List.eq_of_mem_replicate hx]
  decide

theorem long_line_first_read (n lim : Nat) (hn : SAVEFILE_BUF_SIZE ≤ n)
    (hl : SAVEFILE_BUF_SIZE ≤ lim) :
    lineOf lim (freshRead (List.replicate n 97 ++ [10]))
      = List.replicate SAVEFILE_BUF_SIZE 97 := by
  have hinv := freshRead_inv (List.replicate n 97 ++ [10])
  have hs : (staged (freshRead (List.replicate n 97 ++ [10]))).length = 0 := by
    rw [staged_length]; rfl
  rw [lineOf_eq_takeLine hinv, window_eq hinv, freshRead_unread, hs, Nat.zero_add,
    List.take_append_of_le_length (by simpa using hn), List.take_replicate,
    Nat.min_eq_left hn, takeLine_of_clean _ _ (by
      intro x hx
      rw [List.eq_of_mem_replicate hx]
      decide),
    List.take_replicate, Nat.min_eq_right hl]

theorem longLine_line : (savefile_read_line zeroMem 65538 (freshRead longLine)).line
      = List.replicate 65536 97 := by
  rw [read_line_line, longLine_eq]
  exact long_line_first_read 65536 (limit 65538) (Nat.le_refl _) (by decide)

/-- C3 as stated fails: on a fresh reading state whose file is one line of
65537 bytes, a read with `max_len = 65538` (the line fits the destination)
hands back the first 65536 bytes only, without the newline. -/
theorem read_line_whole_line_counterexample :
    ReadInv (freshRead longLine) longLine ∧
    unread (freshRead longLine) = longLine ++ [] ∧
    endsLine longLine = true ∧
    longLine.length ≤ 65538 - 1 ∧
    (savefile_read_line zeroMem 65538 (freshRead longLine)).line = List.replicate 65536 97 ∧
    (savefile_read_line zeroMem 65538 (freshRead longLine)).line ≠ longLine := by
  refine ⟨freshRead_inv _, by rw [freshRead_unread, List.append_nil], longLine_ends, ?_,
    longLine_line, ?_⟩
  · rw [longLine_length]
  · rw [longLine_line]
    intro h
    have hlen := congrArg List.length h
    rw [List.length_replicate, longLine_length] at hlen
    omega

/-- C3, amended: for every reading state, if the unread bytes begin with a whole
line `L` (the bytes up to and including the first terminator) that fits the
destination (`L.length <= max_len - 1`) and ends within the staged bytes plus
one refill of `SAVEFILE_BUF_SIZE` bytes, then `savefile_read_line` hands back
exactly `L`, and the unread bytes left are those after `L`. -/
theorem read_line_whole_line (s : savefile_t) (data : List Nat) (h : ReadInv s data)
    (dest : Mem) (max_len : Nat) (L tail : List Nat) (hu : unread s = L ++ tail)
    (hL : endsLine L = true) (hfit : L.length + 1 ≤ max_len)
    (hwin : L.length ≤ (staged s).length + SAVEFILE_BUF_SIZE) :
    (savefile_read_line dest max_len s).line = L ∧
    unread (savefile_read_line dest max_len s).s = tail := by
  obtain ⟨g1, g2, _⟩ := read_line_whole h (limit max_len) L tail hu hL
    (by rw [limit_of_pos (by omega)]; omega) hwin
  rw [read_line_line, read_line_state]
  exact ⟨g1, g2⟩

/-- Witness of C3 amended: the file `"a\nb"`, just opened, read through a
three-byte destination. -/
theorem read_line_whole_line_witness :
    ReadInv (freshRead [97, 10, 98]) [97, 10, 98] ∧
    unread (freshRead [97, 10, 98]) = [97, 10] ++ [98] ∧
    endsLine [97, 10] = true ∧ [97, 10].length + 1 ≤ 3 ∧
    [97, 10].length ≤ (staged (freshRead [97, 10, 98])).length + SAVEFILE_BUF_SIZE ∧
    (savefile_read_line zeroMem 3 (freshRead [97, 10, 98])).line = [97, 10] ∧
    unread (savefile_read_line zeroMem 3 (freshRead [97, 10, 98])).s = [98] :=
  ⟨freshRead_inv _, freshRead_unread _, by decide, by decide, by decide,
    read_line_whole_line (freshRead [97, 10, 98]) [97, 10, 98] (freshRead_inv _) zeroMem 3
      [97, 10] [98] (freshRead_unread _) (by decide) (by decide) (by decide)⟩

theorem isLine_ne_nil {l : List Nat} (h : isLine l = true) : l ≠ [] := by
  intro hl
  subst hl
  simp [isLine] at h

/-- C6: a file made of one or more newline-terminated lines, of total length no
multiple of `SAVEFILE_BUF_SIZE`, is opened in Read mode.  Then `savefile_eof` is
false after the open, and after any number of `savefile_read_line` calls it is
true exactly when the calls have handed back every byte of the file: false
while bytes are undelivered, true right after the call that hands back the
last of them.  When each line fits the destination and the staging buffer, that
call is the one that returns the last line. -/
theorem eof_after_last_line (s0 : savefile_t) (lines : List (List Nat))
    (hl : ∀ l ∈ lines, isLine l = true) (h0 : s0.disk = some lines.flatten)
    (hC : lines.flatten.length % SAVEFILE_BUF_SIZE ≠ 0) (dest : Mem) (max_len : Nat) :
    ∃ s, savefile_open s0 SAVEFILE_READ = Except.ok s ∧ savefile_eof s = false ∧
      (∀ n, savefile_eof (read_lines dest max_len n s).2 = true ↔
        (read_lines dest max_len n s).1.flatten = lines.flatten) ∧
      ((∀ l ∈ lines, l.length < max_len ∧ l.length ≤ SAVEFILE_BUF_SIZE) →
        (read_lines dest max_len lines.length s).1 = lines ∧
        savefile_eof (read_lines dest max_len lines.length s).2 = true) := by
  obtain ⟨s, hs, hinv, hu, _, _, he, _⟩ := open_read_spec s0 _ h0
  have hiff : ∀ n, savefile_eof (read_lines dest max_len n s).2 = true ↔
      (read_lines dest max_len n s).1.flatten = lines.flatten := by
    intro n
    obtain ⟨g1, g2⟩ := read_lines_inv max_len n dest hinv
    rw [hu] at g2
    constructor
    · intro h
      rw [unread_nil_of_eof g1 h, List.append_nil] at g2
      exact g2.symm
    · intro h
      apply eof_of_unread_nil g1 hC
      rw [← h] at g2
      exact List.append_right_eq_self.1 g2.symm
  refine ⟨s, hs, ?_, hiff, ?_⟩
  · simp [savefile_eof, he]
  · intro hb
    have hw := read_lines_whole max_len lines dest hinv [] (by rw [hu, List.append_nil])
      (fun l hx => ⟨endsLine_of_isLine (hl l hx), by
        have := (hb l hx).1
        have hm : 1 ≤ max_len := by omega
        rw [limit_of_pos hm]; omega, (hb l hx).2⟩)
    refine ⟨hw.1, (hiff _).2 ?_⟩
    rw [hw.1]

/-- Witness of C6: the two records of the concrete scenario. -/
theorem eof_after_last_line_witness :
    (∀ l ∈ demoLines, isLine l = true) ∧
    (savefile_init (some demoLines.flatten) zeroMem none).disk = some demoLines.flatten ∧
    demoLines.flatten.length % SAVEFILE_BUF_SIZE ≠ 0 ∧
    ∃ s, savefile_open (savefile_init (some demoLines.flatten) zeroMem none) SAVEFILE_READ
        = Except.ok s ∧ savefile_eof s = false ∧
      (∀ n, savefile_eof (read_lines zeroMem 100 n s).2 = true ↔
        (read_lines zeroMem 100 n s).1.flatten = demoLines.flatten) ∧
      ((∀ l ∈ demoLines, l.length < 100 ∧ l.length ≤ SAVEFILE_BUF_SIZE) →
        (read_lines zeroMem 100 demoLines.length s).1 = demoLines ∧
        savefile_eof (read_lines zeroMem 100 demoLines.length s).2 = true) :=
  ⟨by decide, rfl, by decide,
    eof_after_last_line _ demoLines (by decide) rfl (by decide) zeroMem 100⟩

/-- Once `savefile_eof` is true a read hands back nothing and changes
nothing. -/
theorem read_line_at_eof (lim : Nat) (s : savefile_t) (he : savefile_eof s = true) :
    lineOf lim s = [] ∧ stateOf lim s = s := by
  simp only [savefile_eof, Bool.and_eq_true, decide_eq_true_eq] at he
  have hs : staged s = [] := by
    apply List.eq_nil_of_length_eq_zero
    rw [staged_length]; omega
  have hs0 : ({ s with buf_off := s.buf_off } : savefile_t) = s := rfl
  have hr : refill s = s := refill_noop s (by simp [he.2])
  unfold lineOf stateOf
  simp [hs, takeLine_nil, hs0, hr]

theorem read_lines_at_eof (dest : Mem) (max_len n : Nat) (s : savefile_t)
    (he : savefile_eof s = true) :
    read_lines dest max_len n s = (List.replicate n [], s) := by
  induction n generalizing dest with
  | zero => rfl
  | succ n ih =>
    obtain ⟨h1, h2⟩ := read_line_at_eof (limit max_len) s he
    simp only [read_lines, read_line_line, read_line_state, h1, h2, ih, List.replicate_succ]

/-- C7: in every state in which `savefile_eof` is true, `savefile_read_line`
makes no OS call (the savefile, its file pointer and its record of calls
included, is left exactly as it was, so `buf_off`, `read_size` and `eof` are
unchanged), hands back the empty string, and `savefile_eof` is still true
after any number of further calls; `savefile_rewind` makes it false. -/
theorem eof_monotone (s : savefile_t) (he : savefile_eof s = true) (dest : Mem)
    (max_len : Nat) :
    (savefile_read_line dest max_len s).s = s ∧
    (savefile_read_line dest max_len s).s.calls = s.calls ∧
    (savefile_read_line dest max_len s).line = [] ∧
    (savefile_read_line dest max_len s).dest 0 = 0 ∧
    (∀ n, (read_lines dest max_len n s).2 = s ∧
      (read_lines dest max_len n s).1 = List.replicate n [] ∧
      savefile_eof (read_lines dest max_len n s).2 = true) ∧
    savefile_eof (savefile_rewind s) = false := by
  obtain ⟨h1, h2⟩ := read_line_at_eof (limit max_len) s he
  refine ⟨by rw [read_line_state, h2], by rw [read_line_state, h2],
    by rw [read_line_line, h1], ?_, ?_, ?_⟩
  · rw [read_line_eq, h1]
    simp [store]
  · intro n
    rw [read_lines_at_eof dest max_len n s he]
    exact ⟨rfl, rfl, he⟩
  · simp [savefile_eof, savefile_rewind]

/-- Witness of C7: the state left by reading the whole of the file `"a\n"`. -/
theorem eof_monotone_witness :
    savefile_eof atEof = true ∧
    (savefile_read_line zeroMem 100 atEof).s = atEof ∧
    (savefile_read_line zeroMem 100 atEof).s.calls = atEof.calls ∧
    (savefile_read_line zeroMem 100 atEof).line = [] ∧
    (savefile_read_line zeroMem 100 atEof).dest 0 = 0 ∧
    (∀ n, (read_lines zeroMem 100 n atEof).2 = atEof ∧
      (read_lines zeroMem 100 n atEof).1 = List.replicate n [] ∧
      savefile_eof (read_lines zeroMem 100 n atEof).2 = true) ∧
    savefile_eof (savefile_rewind atEof) = false :=
  ⟨by decide, eof_monotone atEof (by decide) zeroMem 100⟩

/-- What `savefile_rewind` leaves of a reading state. -/
theorem rewind_spec {s : savefile_t} {data : List Nat} (h : ReadInv s data) :
    ReadInv (savefile_rewind s) data ∧ (savefile_rewind s).read_size = 0 ∧
      (savefile_rewind s).buf_off = 0 ∧ (savefile_rewind s).eof = false ∧
      unread (savefile_rewind s) = data := by
  obtain ⟨pos, hh, _, _, _⟩ := h.handle
  have hd := h.disk
  have hr : savefile_rewind s = { s with
      calls := s.calls ++ [OsCall.setFilePointerEx 0 MoveMethod.FILE_BEGIN],
      file_handle := some ⟨Access.GENERIC_READ, 0⟩,
      read_size := 0, buf_off := 0, eof := false } := by
    simp [savefile_rewind, SetFilePointerEx, hh, hd]
  rw [hr]
  refine ⟨⟨hd, ⟨0, rfl, Nat.zero_le _, by simp, by simp⟩, Nat.le_refl _, Nat.zero_le _⟩,
    rfl, rfl, rfl, ?_⟩
  simp [unread, staged, ahead, hd, bytes]

theorem read_calls_inv (args : List (Mem × Nat)) {s : savefile_t} {data : List Nat}
    (h : ReadInv s data) : ReadInv (read_calls args s) data := by
  induction args generalizing s with
  | nil => exact h
  | cons a as ih =>
    simp only [read_calls, List.foldl_cons]
    apply ih
    rw [read_line_state]
    exact (read_line_inv h _).1

/-- The first read of a state with nothing staged and `eof` clear. -/
theorem lineOf_of_empty {s : savefile_t} {data : List Nat} (h : ReadInv s data) (lim : Nat)
    (h1 : s.read_size = 0) (h2 : s.buf_off = 0) :
    lineOf lim s = takeLine lim ((unread s).take SAVEFILE_BUF_SIZE) := by
  rw [lineOf_eq_takeLine h, window_eq h, staged_length, h1, h2]
  simp

/-- C8: after an open in Read mode and any sequence of `savefile_read_line`
calls, `savefile_rewind` leaves `read_size = buf_off = 0` and `eof` clear, and
the next `savefile_read_line` hands back the same string as the first one
after the open does; that string is the first line of the file when the
file begins with a line that fits the destination and the staging buffer. -/
theorem rewind_resets (s0 : savefile_t) (content : List Nat) (h0 : s0.disk = some content)
    (args : List (Mem × Nat)) :
    ∃ s, savefile_open s0 SAVEFILE_READ = Except.ok s ∧
      (savefile_rewind (read_calls args s)).read_size = 0 ∧
      (savefile_rewind (read_calls args s)).buf_off = 0 ∧
      (savefile_rewind (read_calls args s)).eof = false ∧
      (∀ dest max_len,
        (savefile_read_line dest max_len (savefile_rewind (read_calls args s))).line
          = (savefile_read_line dest max_len s).line) ∧
      (∀ dest max_len L1 tail, content = L1 ++ tail → endsLine L1 = true →
        L1.length < max_len → L1.length ≤ SAVEFILE_BUF_SIZE →
        (savefile_read_line dest max_len (savefile_rewind (read_calls args s))).line = L1) := by
  obtain ⟨s, hs, hinv, hu, hs1, hs2, _⟩ := open_read_spec s0 content h0
  obtain ⟨g1, g2, g3, g4, g5⟩ := rewind_spec (read_calls_inv args hinv)
  refine ⟨s, hs, g2, g3, g4, ?_, ?_⟩
  · intro dest max_len
    rw [read_line_line, read_line_line, lineOf_of_empty g1 _ g2 g3,
      lineOf_of_empty hinv _ hs1 hs2, g5, hu]
  · intro dest max_len L1 tail hc hL hfit hC
    rw [read_line_line]
    refine (read_line_whole g1 (limit max_len) L1 tail (by rw [g5, hc]) hL ?_ (by omega)).1
    rw [limit_of_pos (by omega)]
    omega

/-- Witness of C8: the two records of the concrete scenario, read twice
through a hundred-byte destination and then through a four-byte one. -/
theorem rewind_resets_witness :
    (savefile_init (some demoLines.flatten) zeroMem none).disk = some demoLines.flatten ∧
    ∃ s, savefile_open (savefile_init (some demoLines.flatten) zeroMem none) SAVEFILE_READ
        = Except.ok s ∧
      (savefile_rewind (read_calls [(zeroMem, 100), (zeroMem, 100), (zeroMem, 4)] s)).read_size
        = 0 ∧
      (savefile_rewind (read_calls [(zeroMem, 100), (zeroMem, 100), (zeroMem, 4)] s)).buf_off
        = 0 ∧
      (savefile_rewind (read_calls [(zeroMem, 100), (zeroMem, 100), (zeroMem, 4)] s)).eof
        = false ∧
      (∀ dest max_len,
        (savefile_read_line dest max_len
          (savefile_rewind (read_calls [(zeroMem, 100), (zeroMem, 100), (zeroMem, 4)] s))).line
          = (savefile_read_line dest max_len s).line) ∧
      (∀ dest max_len L1 tail, demoLines.flatten = L1 ++ tail → endsLine L1 = true →
        L1.length < max_len → L1.length ≤ SAVEFILE_BUF_SIZE →
        (savefile_read_line dest max_len
          (savefile_rewind (read_calls [(zeroMem, 100), (zeroMem, 100), (zeroMem, 4)] s))).line
          = L1) :=
  ⟨rfl, rewind_resets _ demoLines.flatten rfl [(zeroMem, 100), (zeroMem, 100), (zeroMem, 4)]⟩

theorem bytes_append (mem : Mem) (lo mid hi : Nat) (h1 : lo ≤ mid) (h2 : mid ≤ hi) :
    bytes mem lo hi = bytes mem lo mid ++ bytes mem mid hi := by
  obtain ⟨d, rfl⟩ : ∃ d, mid = lo + d := ⟨mid - lo, by omega⟩
  induction d generalizing lo with
  | zero => simp [bytes_of_le mem (Nat.le_refl lo)]
  | succ d ih =>
    rw [bytes_cons mem (by omega : lo < hi), bytes_cons mem (by omega : lo < lo + (d + 1))]
    have e : lo + (d + 1) = (lo + 1) + d := by omega
    rw [e, List.cons_append, ← ih (lo + 1) (by omega) (by omega)]

theorem cstr_of_nonzero (text : List Nat) (hz : ∀ c ∈ text, c ≠ 0) : cstr text = text := by
  unfold cstr
  rw [List.takeWhile_eq_self_iff]
  intro c hc
  simpa using hz c hc

theorem strlen_of_nonzero (text : List Nat) (hz : ∀ c ∈ text, c ≠ 0) :
    strlen text = text.length := by
  rw [strlen, cstr_of_nonzero text hz]

/-- The buffer after `sprintf` at `off`: what was ahead of `off`, then the
text. -/
theorem bytes_sprintf (mem : Mem) (off : Nat) (text : List Nat) :
    bytes (blit mem off (text ++ [0])) 0 (off + text.length) = bytes mem 0 off ++ text := by
  rw [bytes_append _ 0 off (off + text.length) (Nat.zero_le _) (Nat.le_add_right _ _)]
  congr 1
  · apply bytes_congr
    intro k _ hk
    have : ¬ (off ≤ k ∧ k < off + (text ++ [0]).length) := by omega
    simp only [blit, if_neg this]
  · rw [← blit_append]
    refine Eq.trans (bytes_congr ?_) (bytes_blit mem off text)
    intro k _ hk
    have : ¬ (off + text.length ≤ k ∧ k < off + text.length + [0].length) := by omega
    simp only [blit, if_neg this]

/-- The function `savefile_flush` on a writing state: the pending bytes go to
the end of the file and the buffer is left empty. -/
theorem flush_spec {s : savefile_t} {data : List Nat} (h : WriteInv s data) :
    WriteInv (savefile_flush s) (data ++ pending s) ∧ (savefile_flush s).buf_off = 0 ∧
      (savefile_flush s).calls = s.calls
        ++ (if s.buf_off ≠ 0 then [OsCall.writeFile (pending s)] else [])
        ++ [OsCall.flushFileBuffers] := by
  obtain ⟨hd, hh⟩ := h
  by_cases ho : s.buf_off = 0
  · have hp : pending s = [] := by simp [pending, ho, bytes]
    simp [savefile_flush, ho, FlushFileBuffers, WriteInv, hd, hh, hp]
  · have hlen : (bytes s.buf 0 s.buf_off).length = s.buf_off := by simp [bytes_length]
    simp [savefile_flush, ho, FlushFileBuffers, WriteInv, WriteFile, hd, hh, pending, hlen]

/-- The function `savefile_write_line` on a writing state, for a text free of
NUL bytes: the flush is made exactly when `buf_off + strlen + 1` reaches
`SAVEFILE_BUF_SIZE`, and the text then follows what is pending. -/
theorem write_line_spec {s : savefile_t} {data : List Nat} (h : WriteInv s data)
    (text : List Nat) (hz : ∀ c ∈ text, c ≠ 0) :
    (s.buf_off + text.length + 1 < SAVEFILE_BUF_SIZE →
      WriteInv (savefile_write_line s text) data ∧
      (savefile_write_line s text).calls = s.calls ∧
      pending (savefile_write_line s text) = pending s ++ text ∧
      (savefile_write_line s text).buf_off = s.buf_off + text.length) ∧
    (SAVEFILE_BUF_SIZE ≤ s.buf_off + text.length + 1 →
      WriteInv (savefile_write_line s text) (data ++ pending s) ∧
      (savefile_write_line s text).calls = (savefile_flush s).calls ∧
      pending (savefile_write_line s text) = text ∧
      (savefile_write_line s text).buf_off = text.length) := by
  have hlen := strlen_of_nonzero text hz
  have hc := cstr_of_nonzero text hz
  constructor
  · intro hlt
    have hnot : ¬ (s.buf_off + text.length + 1 ≥ SAVEFILE_BUF_SIZE) := by omega
    simp only [savefile_write_line, sprintf, hlen, hc, if_neg hnot, pending]
    exact ⟨h, trivial, bytes_sprintf _ _ _, trivial⟩
  · intro hge
    obtain ⟨g1, g2, _⟩ := flush_spec h
    have hyes : s.buf_off + text.length + 1 ≥ SAVEFILE_BUF_SIZE := hge
    simp only [savefile_write_line, sprintf, hlen, hc, if_pos hyes, pending, g2, Nat.zero_add]
    refine ⟨g1, trivial, ?_, trivial⟩
    have := bytes_sprintf (savefile_flush s).buf 0 text
    simpa [bytes_of_le] using this

/-- Writing lines one after the other: file content and pending bytes together
grow by the lines, and the pending offset stays inside the buffer. -/
theorem write_lines_spec (texts : List (List Nat)) {s : savefile_t} {data : List Nat}
    (h : WriteInv s data) (ho : s.buf_off < SAVEFILE_BUF_SIZE)
    (hz : ∀ t ∈ texts, ∀ c ∈ t, c ≠ 0) (hn : ∀ t ∈ texts, t.length < SAVEFILE_BUF_SIZE) :
    ∃ data', WriteInv (write_lines s texts) data' ∧
      data' ++ pending (write_lines s texts) = data ++ pending s ++ texts.flatten ∧
      (write_lines s texts).buf_off < SAVEFILE_BUF_SIZE := by
  induction texts generalizing s data with
  | nil => exact ⟨data, h, by simp [write_lines], ho⟩
  | cons t ts ih =>
    obtain ⟨w1, w2⟩ := write_line_spec h t (hz t (by simp))
    have hnt := hn t (by simp)
    have hzs : ∀ x ∈ ts, ∀ c ∈ x, c ≠ 0 := fun x hx => hz x (by simp [hx])
    have hns : ∀ x ∈ ts, x.length < SAVEFILE_BUF_SIZE := fun x hx => hn x (by simp [hx])
    by_cases hc : s.buf_off + t.length + 1 < SAVEFILE_BUF_SIZE
    · obtain ⟨g1, _, g3, g4⟩ := w1 hc
      obtain ⟨data', k1, k2, k3⟩ := ih g1 (by omega) hzs hns
      refine ⟨data', k1, ?_, k3⟩
      simp only [write_lines, List.foldl_cons, List.flatten_cons] at k2 ⊢
      rw [k2, g3]
      simp [List.append_assoc]
    · obtain ⟨g1, _, g3, g4⟩ := w2 (by omega)
      obtain ⟨data', k1, k2, k3⟩ := ih g1 (by omega) hzs hns
      refine ⟨data', k1, ?_, k3⟩
      simp only [write_lines, List.foldl_cons, List.flatten_cons] at k2 ⊢
      rw [k2, g3]
      simp [List.append_assoc]

/-- Lines written and then flushed are in the file, after what it held. -/
theorem write_lines_flush (texts : List (List Nat)) {s : savefile_t} {data : List Nat}
    (h : WriteInv s data) (ho : s.buf_off = 0)
    (hz : ∀ t ∈ texts, ∀ c ∈ t, c ≠ 0) (hn : ∀ t ∈ texts, t.length < SAVEFILE_BUF_SIZE) :
    (savefile_flush (write_lines s texts)).disk = some (data ++ texts.flatten) ∧
      (write_lines s texts).buf_off < SAVEFILE_BUF_SIZE := by
  obtain ⟨data', k1, k2, k3⟩ := write_lines_spec texts h (by rw [ho]; exact buf_size_pos) hz hn
  have hp : pending s = [] := by simp [pending, ho, bytes]
  rw [hp, List.append_nil] at k2
  refine ⟨?_, k3⟩
  rw [(flush_spec k1).1.1, k2]

theorem open_write_spec (s0 : savefile_t) :
    ∃ s, savefile_open s0 SAVEFILE_WRITE = Except.ok s ∧ WriteInv s [] ∧ s.buf_off = 0 := by
  refine ⟨{ s0 with
      calls := s0.calls ++ [OsCall.createFile Access.GENERIC_WRITE Disposition.CREATE_ALWAYS],
      disk := some [],
      file_handle := some ⟨Access.GENERIC_WRITE, 0⟩,
      read_size := 0, eof := false, buf_off := 0 }, ?_, ⟨rfl, rfl⟩, rfl⟩
  simp [savefile_open, SAVEFILE_WRITE, CreateFile]

theorem open_append_spec (s0 : savefile_t) (P : List Nat) (h0 : s0.disk = some P) :
    ∃ s, savefile_open s0 SAVEFILE_APPEND = Except.ok s ∧ WriteInv s P ∧ s.buf_off = 0 := by
  refine ⟨{ s0 with
      calls := s0.calls ++ [OsCall.createFile Access.GENERIC_WRITE Disposition.OPEN_ALWAYS,
        OsCall.setFilePointerEx 0 MoveMethod.FILE_END],
      file_handle := some ⟨Access.GENERIC_WRITE, P.length⟩,
      read_size := 0, eof := false, buf_off := 0 }, ?_, ⟨h0, rfl⟩, rfl⟩
  simp [savefile_open, SAVEFILE_APPEND, CreateFile, SetFilePointerEx, h0]

theorem close_disk (s : savefile_t) : (savefile_close s).disk = s.disk := rfl

theorem freshWrite_open :
    savefile_open (savefile_init none zeroMem none) SAVEFILE_WRITE = Except.ok freshWrite := rfl

theorem atEof_reached : (savefile_read_line zeroMem 100 (freshRead [97, 10])).s = atEof := by
  rfl

theorem twoPending_reached : savefile_write_line freshWrite [97, 10] = twoPending := by
  rfl

theorem blit_replicate (n a k : Nat) :
    blit zeroMem 0 (List.replicate n a ++ [0]) k = if k < n then a else 0 := by
  simp only [blit, List.length_append, List.length_replicate, List.length_singleton,
    Nat.zero_le, true_and, Nat.zero_add, Nat.sub_zero]
  by_cases h1 : k < n
  · rw [if_pos (by omega), if_pos h1, List.getD_eq_getElem?_getD,
      List.getElem?_append_left (by simpa using h1)]
    simp [h1]
  · rw [if_neg h1]
    by_cases h2 : k < n + 1
    · have hk : k = n := by omega
      subst hk
      rw [if_pos h2, List.getD_eq_getElem?_getD,
        List.getElem?_append_right (by simp)]
      simp
    · rw [if_neg h2]
      rfl

theorem write_replicate (n : Nat) (hn : n + 1 < SAVEFILE_BUF_SIZE) :
    savefile_write_line freshWrite (List.replicate n 97)
      = { freshWrite with buf := fun k => if k < n then 97 else 0, buf_off := n } := by
  have hz : ∀ c ∈ List.replicate n 97, c ≠ 0 := by
    intro c hc
    rw [List.eq_of_mem_replicate hc]
    decide
  have hlen := strlen_of_nonzero _ hz
  have hc := cstr_of_nonzero _ hz
  rw [List.length_replicate] at hlen
  have hnot : ¬ (freshWrite.buf_off + n + 1 ≥ SAVEFILE_BUF_SIZE) := by
    have : freshWrite.buf_off = 0 := rfl
    omega
  simp only [savefile_write_line, sprintf, hlen, hc, if_neg hnot]
  have hb : blit freshWrite.buf freshWrite.buf_off (List.replicate n 97 ++ [0])
      = fun k => if k < n then 97 else 0 := by
    funext k
    exact blit_replicate n 97 k
  rw [hb]
  have : freshWrite.buf_off + n = n := by
    have : freshWrite.buf_off = 0 := rfl
    omega
  rw [this]

theorem nearFull_reached :
    savefile_write_line freshWrite (List.replicate 65530 97) = nearFull :=
  write_replicate 65530 (by decide)

/-- The C string in the caller's buffer after a read is the string handed
back, when that string holds no NUL byte. -/
theorem cstr_read_line (dest : Mem) (max_len : Nat) (s : savefile_t)
    (hz : ∀ c ∈ (savefile_read_line dest max_len s).line, c ≠ 0) :
    cstr (bytes (savefile_read_line dest max_len s).dest 0
        ((savefile_read_line dest max_len s).len + 1))
      = (savefile_read_line dest max_len s).line := by
  have hl : (savefile_read_line dest max_len s).line
      = bytes (savefile_read_line dest max_len s).dest 0 (savefile_read_line dest max_len s).len :=
    rfl
  have h0 : (savefile_read_line dest max_len s).dest (savefile_read_line dest max_len s).len
      = 0 := by
    rw [read_line_eq]
    simp [store]
  rw [bytes_append _ 0 (savefile_read_line dest max_len s).len _ (Nat.zero_le _)
    (Nat.le_succ _), ← hl, bytes_cons _ (Nat.lt_succ_self _), h0,
    bytes_of_le _ (Nat.le_refl _)]
  generalize (savefile_read_line dest max_len s).line = l at hz
  unfold cstr
  induction l with
  | nil => simp
  | cons c cs ih =>
    have hc : c ≠ 0 := hz c (by simp)
    simp only [List.cons_append, List.takeWhile_cons, bne_iff_ne, ne_eq, hc, not_false_eq_true,
      decide_True, if_true]
    rw [ih (fun x hx => hz x (by simp [hx]))]

/-- C1: for every list of newline-terminated lines, each shorter than
`SAVEFILE_BUF_SIZE` and free of NUL bytes (they are C strings): open in Write
mode, `savefile_write_line` on each line in order, `savefile_flush`,
`savefile_close`, open in Read mode, and as many `savefile_read_line` calls as
there are lines, with a destination larger than every line, hand back
exactly the lines written, in order. -/
theorem round_trip (s0 : savefile_t) (lines : List (List Nat))
    (hl : ∀ l ∈ lines, isLine l = true) (hz : ∀ l ∈ lines, ∀ c ∈ l, c ≠ 0)
    (hn : ∀ l ∈ lines, l.length < SAVEFILE_BUF_SIZE) (dest : Mem) (max_len : Nat)
    (hm : ∀ l ∈ lines, l.length < max_len) :
    ∃ s1 s2, savefile_open s0 SAVEFILE_WRITE = Except.ok s1 ∧
      savefile_open (savefile_close (savefile_flush (write_lines s1 lines))) SAVEFILE_READ
        = Except.ok s2 ∧
      (read_lines dest max_len lines.length s2).1 = lines := by
  obtain ⟨s1, hs1, hw, ho⟩ := open_write_spec s0
  obtain ⟨hdisk, _⟩ := write_lines_flush lines hw ho hz hn
  rw [List.nil_append] at hdisk
  obtain ⟨s2, hs2, hinv, hu, _⟩ := open_read_spec
    (savefile_close (savefile_flush (write_lines s1 lines))) lines.flatten
    (by rw [close_disk, hdisk])
  refine ⟨s1, s2, hs1, hs2, ?_⟩
  refine (read_lines_whole max_len lines dest hinv [] (by rw [hu, List.append_nil]) ?_).1
  intro l hx
  have h1 := hm l hx
  have h2 := hn l hx
  refine ⟨endsLine_of_isLine (hl l hx), ?_, by omega⟩
  rw [limit_of_pos (by omega)]
  omega

/-- Witness of C1: the two records of the concrete scenario. -/
theorem round_trip_witness :
    (∀ l ∈ demoLines, isLine l = true) ∧ (∀ l ∈ demoLines, ∀ c ∈ l, c ≠ 0) ∧
    (∀ l ∈ demoLines, l.length < SAVEFILE_BUF_SIZE) ∧ (∀ l ∈ demoLines, l.length < 100) ∧
    ∃ s1 s2, savefile_open (savefile_init none zeroMem none) SAVEFILE_WRITE = Except.ok s1 ∧
      savefile_open (savefile_close (savefile_flush (write_lines s1 demoLines))) SAVEFILE_READ
        = Except.ok s2 ∧
      (read_lines zeroMem 100 demoLines.length s2).1 = demoLines :=
  ⟨by decide, by decide, by decide, by decide,
    round_trip (savefile_init none zeroMem none) demoLines (by decide) (by decide) (by decide)
      zeroMem 100 (by decide)⟩

/-- C9: for every existing file content `P` and every list of texts free of NUL
bytes, each shorter than `SAVEFILE_BUF_SIZE`: open in Append mode,
`savefile_write_line` on each text in order, then `savefile_flush`, leave the
file holding `P` followed by the texts in order; the pending offset never
left the buffer. -/
theorem append_preserves_content (s0 : savefile_t) (P : List Nat) (texts : List (List Nat))
    (h0 : s0.disk = some P) (hz : ∀ t ∈ texts, ∀ c ∈ t, c ≠ 0)
    (hn : ∀ t ∈ texts, t.length < SAVEFILE_BUF_SIZE) :
    ∃ s1, savefile_open s0 SAVEFILE_APPEND = Except.ok s1 ∧
      (savefile_flush (write_lines s1 texts)).disk = some (P ++ texts.flatten) ∧
      (write_lines s1 texts).buf_off < SAVEFILE_BUF_SIZE := by
  obtain ⟨s1, hs1, hw, ho⟩ := open_append_spec s0 P h0
  exact ⟨s1, hs1, write_lines_flush texts hw ho hz hn⟩

/-- Witness of C9: the two records of the concrete scenario appended to a file
holding `"x\n"`. -/
theorem append_preserves_content_witness :
    (savefile_init (some [120, 10]) zeroMem none).disk = some [120, 10] ∧
    (∀ t ∈ demoLines, ∀ c ∈ t, c ≠ 0) ∧ (∀ t ∈ demoLines, t.length < SAVEFILE_BUF_SIZE) ∧
    ∃ s1, savefile_open (savefile_init (some [120, 10]) zeroMem none) SAVEFILE_APPEND
        = Except.ok s1 ∧
      (savefile_flush (write_lines s1 demoLines)).disk = some ([120, 10] ++ demoLines.flatten) ∧
      (write_lines s1 demoLines).buf_off < SAVEFILE_BUF_SIZE :=
  ⟨rfl, by decide, by decide,
    append_preserves_content _ [120, 10] demoLines rfl (by decide) (by decide)⟩

theorem nearFull_inv : WriteInv nearFull [] := ⟨rfl, rfl⟩

theorem nearFull_pending_length : (pending nearFull).length = 65530 := by
  rw [pending, bytes_length]
  rfl

/-- C10 as stated fails: with 65530 bytes pending and a text of 5 bytes the
text fits (`65530 + 5 <= 65536`), yet `savefile_write_line` flushes first: the
pending bytes go to the file and the buffer is left holding the text alone. -/
theorem write_line_flush_rule_counterexample :
    WriteInv nearFull [] ∧ nearFull.buf_off ≤ SAVEFILE_BUF_SIZE ∧
    [98, 99, 100, 101, 102].length < SAVEFILE_BUF_SIZE ∧
    nearFull.buf_off + [98, 99, 100, 101, 102].length ≤ SAVEFILE_BUF_SIZE ∧
    (savefile_write_line nearFull [98, 99, 100, 101, 102]).disk ≠ nearFull.disk ∧
    (savefile_write_line nearFull [98, 99, 100, 101, 102]).buf_off = 5 ∧
    OsCall.flushFileBuffers ∈ (savefile_write_line nearFull [98, 99, 100, 101, 102]).calls := by
  obtain ⟨g1, g2, _, g4⟩ := (write_line_spec nearFull_inv [98, 99, 100, 101, 102]
    (by decide)).2 (by decide)
  obtain ⟨_, _, f3⟩ := flush_spec nearFull_inv
  refine ⟨nearFull_inv, by decide, by decide, by decide, ?_, g4, ?_⟩
  · rw [g1.1]
    intro h
    have hlen := nearFull_pending_length
    generalize pending nearFull = p at h hlen
    have : p = [] := by
      have h' : some ([] ++ p) = some ([] : List Nat) := h
      simpa using h'
    rw [this] at hlen
    simp at hlen
  · rw [g2, f3]
    simp

/-- C10, amended: for every writing state and every text free of NUL bytes and
shorter than `SAVEFILE_BUF_SIZE`, with `o` the pending offset and `n` the
length of the text: when `o + n + 1 < SAVEFILE_BUF_SIZE`, `savefile_write_line`
makes no OS call, leaves the file unchanged, and the buffer holds the old
pending bytes followed by the text; when `o + n + 1 >= SAVEFILE_BUF_SIZE` it
flushes first, the old pending bytes are then in the file, and the buffer holds
exactly the text (offset `n`).  Either way the offset stays below
`SAVEFILE_BUF_SIZE`. -/
theorem write_line_flush_rule (s : savefile_t) (data : List Nat) (h : WriteInv s data)
    (text : List Nat) (hz : ∀ c ∈ text, c ≠ 0) (hn : text.length < SAVEFILE_BUF_SIZE) :
    (s.buf_off + text.length + 1 < SAVEFILE_BUF_SIZE →
      (savefile_write_line s text).calls = s.calls ∧
      (savefile_write_line s text).disk = some data ∧
      pending (savefile_write_line s text) = pending s ++ text ∧
      (savefile_write_line s text).buf_off = s.buf_off + text.length) ∧
    (SAVEFILE_BUF_SIZE ≤ s.buf_off + text.length + 1 →
      (savefile_write_line s text).calls = s.calls
        ++ (if s.buf_off ≠ 0 then [OsCall.writeFile (pending s)] else [])
        ++ [OsCall.flushFileBuffers] ∧
      (savefile_write_line s text).disk = some (data ++ pending s) ∧
      pending (savefile_write_line s text) = text ∧
      (savefile_write_line s text).buf_off = text.length) ∧
    (savefile_write_line s text).buf_off < SAVEFILE_BUF_SIZE := by
  obtain ⟨w1, w2⟩ := write_line_spec h text hz
  refine ⟨?_, ?_, ?_⟩
  · intro hc
    obtain ⟨g1, g2, g3, g4⟩ := w1 hc
    exact ⟨g2, g1.1, g3, g4⟩
  · intro hc
    obtain ⟨g1, g2, g3, g4⟩ := w2 hc
    exact ⟨by rw [g2, (flush_spec h).2.2], g1.1, g3, g4⟩
  · by_cases hc : s.buf_off + text.length + 1 < SAVEFILE_BUF_SIZE
    · rw [(w1 hc).2.2.2]; omega
    · rw [(w2 (by omega)).2.2.2]; exact hn

/-- Witness of C10 amended: two bytes pending, the text `"b\n"`. -/
theorem write_line_flush_rule_witness :
    WriteInv twoPending [] ∧ (∀ c ∈ [98, 10], c ≠ 0) ∧ [98, 10].length < SAVEFILE_BUF_SIZE ∧
    (twoPending.buf_off + [98, 10].length + 1 < SAVEFILE_BUF_SIZE →
      (savefile_write_line twoPending [98, 10]).calls = twoPending.calls ∧
      (savefile_write_line twoPending [98, 10]).disk = some [] ∧
      pending (savefile_write_line twoPending [98, 10]) = pending twoPending ++ [98, 10] ∧
      (savefile_write_line twoPending [98, 10]).buf_off = twoPending.buf_off + [98, 10].length) ∧
    (SAVEFILE_BUF_SIZE ≤ twoPending.buf_off + [98, 10].length + 1 →
      (savefile_write_line twoPending [98, 10]).calls = twoPending.calls
        ++ (if twoPending.buf_off ≠ 0 then [OsCall.writeFile (pending twoPending)] else [])
        ++ [OsCall.flushFileBuffers] ∧
      (savefile_write_line twoPending [98, 10]).disk = some ([] ++ pending twoPending) ∧
      pending (savefile_write_line twoPending [98, 10]) = [98, 10] ∧
      (savefile_write_line twoPending [98, 10]).buf_off = [98, 10].length) ∧
    (savefile_write_line twoPending [98, 10]).buf_off < SAVEFILE_BUF_SIZE :=
  ⟨⟨rfl, rfl⟩, by decide, by decide,
    write_line_flush_rule twoPending [] ⟨rfl, rfl⟩ [98, 10] (by decide) (by decide)⟩

theorem endsLine_ne_nil {u : List Nat} (h : endsLine u = true) : u ≠ [] := by
  intro hu
  subst hu
  simp [endsLine] at h

theorem takeLine_of_long (lim : Nat) (u : List Nat) (hu : endsLine u = true)
    (hl : lim < u.length) : takeLine lim u = u.take lim := by
  obtain ⟨body, c, rfl, _, hb⟩ := (endsLine_iff u).1 hu
  have hlb : lim ≤ body.length := by simp at hl; omega
  have hclean := takeLine_of_clean lim body hb
  have hany : (takeLine lim body).any isTerm = false := by
    rw [hclean]
    simp only [List.any_eq_false]
    intro x hx
    simpa using hb x (List.mem_of_mem_take hx)
  have hz : lim - body.length = 0 := by omega
  rw [takeLine_append, hany, hz, takeLine_zero, List.take_append_of_le_length hlb, hclean]
  simp

theorem endsLine_drop (n : Nat) (u : List Nat) (hu : endsLine u = true) (hn : n < u.length) :
    endsLine (u.drop n) = true := by
  obtain ⟨body, c, rfl, hc, hb⟩ := (endsLine_iff u).1 hu
  have hlb : n ≤ body.length := by simp at hn; omega
  rw [endsLine_iff]
  refine ⟨body.drop n, c, ?_, hc, fun x hx => hb x (List.mem_of_mem_drop hx)⟩
  rw [List.drop_append_of_le_length hlb]

/-- A whole line no longer than the staging buffer, read through a destination
of `lim` content bytes: `n` calls, the number that covers its length, hand it
back in pieces of `lim` bytes, the last piece holding what is left. -/
theorem split_reads (max_len : Nat) (n : Nat) (dest : Mem)
    {s : savefile_t} {data : List Nat} (h : ReadInv s data) (u : List Nat)
    (hu : unread s = u) (hL : endsLine u = true) (hC : u.length ≤ SAVEFILE_BUF_SIZE)
    (hhi : u.length ≤ n * limit max_len) (hlo : n * limit max_len < u.length + limit max_len) :
    (read_lines dest max_len n s).1.flatten = u ∧
      ∀ i, i + 1 < n → ((read_lines dest max_len n s).1.getD i []).length = limit max_len := by
  induction n generalizing dest s u with
  | zero =>
    have := endsLine_ne_nil hL
    have : u.length ≠ 0 := by simpa using this
    omega
  | succ n ih =>
    have hmul : (n + 1) * limit max_len = n * limit max_len + limit max_len := Nat.succ_mul _ _
    obtain ⟨hinv, hcons⟩ := read_line_inv h (limit max_len)
    by_cases hfit : u.length ≤ limit max_len
    · have hn0 : n = 0 := by
        by_contra hne
        have h1 : 1 ≤ n := by omega
        have := Nat.mul_le_mul_right (limit max_len) h1
        omega
      subst hn0
      obtain ⟨g1, _, _⟩ := read_line_whole h (limit max_len) u [] (by rw [hu, List.append_nil])
        hL hfit (by omega)
      simp only [read_lines, read_line_line, g1, List.flatten_cons, List.flatten_nil,
        List.append_nil, true_and]
      intro i hi
      omega
    · have hlong : limit max_len < u.length := by omega
      have hline : lineOf (limit max_len) s = u.take (limit max_len) := by
        rw [lineOf_eq_takeLine h, window_eq h, hu, List.take_of_length_le (by omega)]
        exact takeLine_of_long _ u hL hlong
      have hrest : unread (stateOf (limit max_len) s) = u.drop (limit max_len) := by
        rw [hu, hline] at hcons
        have := (List.take_append_drop (limit max_len) u).trans hcons
        exact (List.append_cancel_left this).symm
      rw [← read_line_state dest] at hinv hrest
      obtain ⟨k1, k2⟩ := ih (savefile_read_line dest max_len s).dest hinv
        (u.drop (limit max_len)) hrest (endsLine_drop _ u hL hlong)
        (by rw [List.length_drop]; omega) (by rw [List.length_drop]; omega)
        (by rw [List.length_drop]; omega)
      simp only [read_lines, read_line_line, hline, List.flatten_cons, k1,
        List.take_append_drop, true_and]
      intro i hi
      cases i with
      | zero => simp [List.length_take]; omega
      | succ i => simpa using k2 i (by omega)

theorem read_lines_length (dest : Mem) (max_len n : Nat) (s : savefile_t) :
    (read_lines dest max_len n s).1.length = n := by
  induction n generalizing dest s with
  | zero => rfl
  | succ n ih => simp [read_lines, ih]

theorem read_lines_flatten_le (dest : Mem) (max_len n : Nat) (s : savefile_t) :
    (read_lines dest max_len n s).1.flatten.length ≤ n * limit max_len := by
  induction n generalizing dest s with
  | zero => simp [read_lines]
  | succ n ih =>
    have h1 := lineOf_length_le (limit max_len) s
    have h2 := ih (savefile_read_line dest max_len s).dest (savefile_read_line dest max_len s).s
    simp only [read_lines, read_line_line, List.flatten_cons, List.length_append,
      Nat.succ_mul]
    omega

theorem ceil_bounds (L lim : Nat) (hlim : 1 ≤ lim) :
    L ≤ (L + (lim - 1)) / lim * lim ∧ (L + (lim - 1)) / lim * lim < L + lim := by
  have h1 := Nat.div_add_mod (L + (lim - 1)) lim
  have h2 := Nat.mod_lt (L + (lim - 1)) (by omega : lim > 0)
  rw [Nat.mul_comm] at h1
  constructor <;> omega

/-- C5: a newline-terminated line of length `L < SAVEFILE_BUF_SIZE` is alone in
a file, and `2 <= m` (in particular `2 <= m <= L`, a destination too small for
the line).  After the open in Read mode, `ceil (L / (m - 1))` calls of
`savefile_read_line` with `max_len = m` hand back pieces whose concatenation is
the line; every piece but the last has `m - 1` bytes; no smaller number of
calls hands back the whole line. -/
theorem split_line_continuation (s0 : savefile_t) (line : List Nat) (hl : isLine line = true)
    (hC : line.length < SAVEFILE_BUF_SIZE) (h0 : s0.disk = some line) (dest : Mem) (m : Nat)
    (hm2 : 2 ≤ m) :
    ∃ s, savefile_open s0 SAVEFILE_READ = Except.ok s ∧
      (read_lines dest m ((line.length + (m - 2)) / (m - 1)) s).1.length
        = (line.length + (m - 2)) / (m - 1) ∧
      (read_lines dest m ((line.length + (m - 2)) / (m - 1)) s).1.flatten = line ∧
      (∀ i, i + 1 < (line.length + (m - 2)) / (m - 1) →
        ((read_lines dest m ((line.length + (m - 2)) / (m - 1)) s).1.getD i []).length
          = m - 1) ∧
      (∀ j, j < (line.length + (m - 2)) / (m - 1) →
        (read_lines dest m j s).1.flatten ≠ line) := by
  obtain ⟨s, hs, hinv, hu, _⟩ := open_read_spec s0 line h0
  have hlim : limit m = m - 1 := limit_of_pos (by omega)
  have he : m - 2 = (m - 1) - 1 := by omega
  obtain ⟨c1, c2⟩ := ceil_bounds line.length (m - 1) (by omega)
  rw [← he] at c1 c2
  obtain ⟨g1, g2⟩ := split_reads m ((line.length + (m - 2)) / (m - 1))
    dest hinv line hu (endsLine_of_isLine hl) (by omega) (by rw [hlim]; exact c1)
    (by rw [hlim]; exact c2)
  refine ⟨s, hs, read_lines_length _ _ _ _, g1, ?_, ?_⟩
  · intro i hi
    rw [g2 i hi, hlim]
  · intro j hj heq
    have hle := read_lines_flatten_le dest m j s
    rw [heq, hlim] at hle
    have hj' : j + 1 ≤ (line.length + (m - 2)) / (m - 1) := hj
    have := Nat.mul_le_mul_right (m - 1) hj'
    rw [Nat.succ_mul] at this
    omega

/-- Witness of C5: the record `"15211 3 5\n"` (ten bytes) read through a
destination of four bytes, in four calls. -/
theorem split_line_continuation_witness :
    isLine [49, 53, 50, 49, 49, 32, 51, 32, 53, 10] = true ∧
    [49, 53, 50, 49, 49, 32, 51, 32, 53, 10].length < SAVEFILE_BUF_SIZE ∧
    (savefile_init (some [49, 53, 50, 49, 49, 32, 51, 32, 53, 10]) zeroMem none).disk
      = some [49, 53, 50, 49, 49, 32, 51, 32, 53, 10] ∧
    2 ≤ 4 ∧
    ∃ s, savefile_open (savefile_init (some [49, 53, 50, 49, 49, 32, 51, 32, 53, 10])
        zeroMem none) SAVEFILE_READ = Except.ok s ∧
      (read_lines zeroMem 4
          (([49, 53, 50, 49, 49, 32, 51, 32, 53, 10].length + (4 - 2)) / (4 - 1)) s).1.length
        = ([49, 53, 50, 49, 49, 32, 51, 32, 53, 10].length + (4 - 2)) / (4 - 1) ∧
      (read_lines zeroMem 4
          (([49, 53, 50, 49, 49, 32, 51, 32, 53, 10].length + (4 - 2)) / (4 - 1)) s).1.flatten
        = [49, 53, 50, 49, 49, 32, 51, 32, 53, 10] ∧
      (∀ i, i + 1 < ([49, 53, 50, 49, 49, 32, 51, 32, 53, 10].length + (4 - 2)) / (4 - 1) →
        ((read_lines zeroMem 4
          (([49, 53, 50, 49, 49, 32, 51, 32, 53, 10].length + (4 - 2)) / (4 - 1)) s).1.getD
            i []).length = 4 - 1) ∧
      (∀ j, j < ([49, 53, 50, 49, 49, 32, 51, 32, 53, 10].length + (4 - 2)) / (4 - 1) →
        (read_lines zeroMem 4 j s).1.flatten ≠ [49, 53, 50, 49, 49, 32, 51, 32, 53, 10]) :=
  ⟨by decide, by decide, rfl, by decide,
    split_line_continuation _ [49, 53, 50, 49, 49, 32, 51, 32, 53, 10] (by decide) (by decide)
      rfl zeroMem 4 (by decide)⟩

theorem store_store (mem : Mem) (k v : Nat) : store (store mem k v) k v = store mem k v := by
  funext n
  simp only [store]
  split <;> rfl

/-- C15 as stated fails: opening the missing file `msieve.dat` in Read mode
ends in `exit(-1)` after the message is printed; nothing is handed to the
caller. -/
theorem open_missing_counterexample :
    (savefile_init none zeroMem none).disk = none ∧
    savefile_open (savefile_init none zeroMem none) SAVEFILE_READ
      = Except.error ⟨-1, "error: cannot open 'msieve.dat'"⟩ := by
  exact ⟨rfl, rfl⟩

theorem open_read_missing (s0 : savefile_t) (h0 : s0.disk = none) :
    savefile_open s0 SAVEFILE_READ
      = Except.error ⟨-1, "error: cannot open '" ++ s0.name ++ "'"⟩ := by
  simp [savefile_open, SAVEFILE_READ, CreateFile, h0]

/-- C15, amended: for every savefile whose name designates no file, an open in
Read mode acquires no handle (`CreateFile` gives `INVALID_HANDLE_VALUE`),
prints `error: cannot open '<name>'` and ends the process with status -1
inside the module. -/
theorem open_missing_exits (s0 : savefile_t) (h0 : s0.disk = none) :
    (CreateFile s0 Access.GENERIC_READ Disposition.OPEN_EXISTING).1 = none ∧
    savefile_open s0 SAVEFILE_READ
      = Except.error ⟨-1, "error: cannot open '" ++ s0.name ++ "'"⟩ := by
  simp [savefile_open, SAVEFILE_READ, CreateFile, h0]

/-- Witness of C15 amended: a savefile just initialised, no file on disk. -/
theorem open_missing_exits_witness :
    (savefile_init none zeroMem none).disk = none ∧
    (CreateFile (savefile_init none zeroMem none) Access.GENERIC_READ
      Disposition.OPEN_EXISTING).1 = none ∧
    savefile_open (savefile_init none zeroMem none) SAVEFILE_READ
      = Except.error ⟨-1, "error: cannot open '"
          ++ (savefile_init none zeroMem none).name ++ "'"⟩ :=
  ⟨rfl, open_missing_exits (savefile_init none zeroMem none) rfl⟩

/-- C16 as stated fails: with two bytes pending, `savefile_rewind` resets the
offset to 0, so no byte is pending after it. -/
theorem rewind_write_buffer_counterexample :
    twoPending.buf_off = 2 ∧ pending twoPending = [97, 10] ∧
    (savefile_rewind twoPending).buf_off = 0 ∧ pending (savefile_rewind twoPending) = [] := by
  exact ⟨rfl, by decide, rfl, by decide⟩

/-- C16, amended: for every state, `savefile_rewind` writes nothing to the file
and does not flush (its one OS call moves the file pointer), and it leaves
every byte of the buffer as it was; but it resets the offset `buf_off`, which
the write buffer shares with the read buffer, to 0, so no byte is pending
after it. -/
theorem rewind_write_buffer (s : savefile_t) :
    (savefile_rewind s).disk = s.disk ∧
    (savefile_rewind s).calls
      = s.calls ++ [OsCall.setFilePointerEx 0 MoveMethod.FILE_BEGIN] ∧
    (savefile_rewind s).buf = s.buf ∧
    (savefile_rewind s).buf_off = 0 ∧
    pending (savefile_rewind s) = [] := by
  have h : (savefile_rewind s).buf_off = 0 := rfl
  refine ⟨?_, ?_, ?_, h, ?_⟩
  · simp only [savefile_rewind, SetFilePointerEx]
    split <;> try rfl
  · simp only [savefile_rewind, SetFilePointerEx]
    split <;> try rfl
  · simp only [savefile_rewind, SetFilePointerEx]
    split <;> try rfl
  · rw [pending, h]
    rfl

theorem CreateFile_buf (s : savefile_t) (a : Access) (d : Disposition) :
    (CreateFile s a d).2.buf = s.buf ∧ (CreateFile s a d).2.name = s.name := by
  cases d <;> cases hd : s.disk <;> simp [CreateFile, hd]

theorem SetFilePointerEx_buf (s : savefile_t) (dist : Nat) (m : MoveMethod) :
    (SetFilePointerEx s dist m).buf = s.buf := by
  simp only [SetFilePointerEx]
  split
  · cases m <;> rfl
  · rfl

/-- What every successful `savefile_open` leaves: the buffer untouched, the
three counters cleared. -/
theorem open_ok_fields {s0 s : savefile_t} {flags : Flags}
    (hs : savefile_open s0 flags = Except.ok s) :
    s.buf = s0.buf ∧ s.buf_off = 0 ∧ s.read_size = 0 ∧ s.eof = false := by
  simp only [savefile_open] at hs
  split at hs
  · exact absurd hs (by simp)
  · simp only [Except.ok.injEq] at hs
    subst hs
    refine ⟨?_, rfl, rfl, rfl⟩
    split
    · simp only [SetFilePointerEx_buf]
      exact (CreateFile_buf _ _ _).1
    · exact (CreateFile_buf _ _ _).1

theorem WriteFile_buf (s : savefile_t) (n : Nat) : (WriteFile s n).buf = s.buf := by
  simp only [WriteFile]
  split <;> rfl

theorem flush_buf (s : savefile_t) :
    (savefile_flush s).buf = store s.buf 0 0 ∧ (savefile_flush s).buf_off = 0 := by
  by_cases h : s.buf_off = 0
  · simp [savefile_flush, h, FlushFileBuffers]
  · simp [savefile_flush, h, FlushFileBuffers, WriteFile_buf]

/-- One `savefile_write_line` of a text shorter than the buffer, from an offset
inside the buffer: the new offset, which is the index of the closing NUL, is
inside the buffer, and nothing at or past `SAVEFILE_BUF_SIZE` is stored. -/
theorem write_line_in_bounds (s : savefile_t) (text : List Nat)
    (hn : strlen text < SAVEFILE_BUF_SIZE) :
    (savefile_write_line s text).buf_off < SAVEFILE_BUF_SIZE ∧
    ∀ k, SAVEFILE_BUF_SIZE ≤ k → (savefile_write_line s text).buf k = s.buf k := by
  have hpos := buf_size_pos
  have hlen : (cstr text ++ [0]).length = strlen text + 1 := by simp [strlen]
  by_cases hc : s.buf_off + strlen text + 1 ≥ SAVEFILE_BUF_SIZE
  · obtain ⟨f1, f2⟩ := flush_buf s
    simp only [savefile_write_line, sprintf, if_pos hc, f1, f2, Nat.zero_add]
    refine ⟨hn, ?_⟩
    intro k hk
    have h1 : ¬ (0 ≤ k ∧ k < 0 + (cstr text ++ [0]).length) := by rw [hlen]; omega
    have h2 : k ≠ 0 := by omega
    simp only [blit, if_neg h1, store, if_neg h2]
  · simp only [savefile_write_line, sprintf, if_neg hc]
    refine ⟨by omega, ?_⟩
    intro k hk
    have h1 : ¬ (s.buf_off ≤ k ∧ k < s.buf_off + (cstr text ++ [0]).length) := by
      rw [hlen]; omega
    simp only [blit, if_neg h1]

theorem run_write_ops_in_bounds (ops : List WriteOp) (s : savefile_t)
    (ho : s.buf_off < SAVEFILE_BUF_SIZE)
    (hn : ∀ text, WriteOp.write_line text ∈ ops → strlen text < SAVEFILE_BUF_SIZE) :
    (run_write_ops s ops).buf_off < SAVEFILE_BUF_SIZE ∧
    ∀ k, SAVEFILE_BUF_SIZE ≤ k → (run_write_ops s ops).buf k = s.buf k := by
  induction ops generalizing s with
  | nil => exact ⟨ho, fun _ _ => rfl⟩
  | cons op ops ih =>
    have hrest : ∀ text, WriteOp.write_line text ∈ ops → strlen text < SAVEFILE_BUF_SIZE :=
      fun text ht => hn text (List.mem_cons_of_mem _ ht)
    simp only [run_write_ops, List.foldl_cons]
    cases op with
    | write_line text =>
      obtain ⟨w1, w2⟩ := write_line_in_bounds s text (hn text (List.mem_cons_self _ _))
      obtain ⟨g1, g2⟩ := ih (savefile_write_line s text) w1 hrest
      exact ⟨g1, fun k hk => (g2 k hk).trans (w2 k hk)⟩
    | flush =>
      obtain ⟨f1, f2⟩ := flush_buf s
      obtain ⟨g1, g2⟩ := ih (savefile_flush s) (by rw [f2]; exact buf_size_pos) hrest
      refine ⟨g1, fun k hk => (g2 k hk).trans ?_⟩
      have h2 : k ≠ 0 := by have := buf_size_pos; omega
      simp only [f1, store, if_neg h2]

/-- C11: after a successful open (in Write or Append mode, or any other) and
any sequence of `savefile_write_line` and `savefile_flush` calls whose texts
are all shorter than `SAVEFILE_BUF_SIZE`, the pending offset is below
`SAVEFILE_BUF_SIZE`; that offset is the index at which the last
`savefile_write_line` stored its closing NUL, and no call stored anything at an
index at or past `SAVEFILE_BUF_SIZE`: there the memory is as the open found
it, whatever it held. -/
theorem write_buffer_in_bounds (s0 s : savefile_t) (flags : Flags)
    (hs : savefile_open s0 flags = Except.ok s) (ops : List WriteOp)
    (hn : ∀ text, WriteOp.write_line text ∈ ops → strlen text < SAVEFILE_BUF_SIZE) :
    (run_write_ops s ops).buf_off < SAVEFILE_BUF_SIZE ∧
    (run_write_ops s ops).buf_off ≤ SAVEFILE_BUF_SIZE ∧
    ∀ k, SAVEFILE_BUF_SIZE ≤ k → (run_write_ops s ops).buf k = s0.buf k := by
  obtain ⟨h1, h2, _, _⟩ := open_ok_fields hs
  obtain ⟨g1, g2⟩ := run_write_ops_in_bounds ops s (by rw [h2]; exact buf_size_pos) hn
  exact ⟨g1, Nat.le_of_lt g1, fun k hk => by rw [g2 k hk, h1]⟩

theorem demoOps_short :
    ∀ text, WriteOp.write_line text ∈ demoOps → strlen text < SAVEFILE_BUF_SIZE := by
  intro text ht
  simp [demoOps] at ht
  rcases ht with rfl | rfl | rfl <;> decide

/-- Witness of C11: after an open in Write mode, the two records of the
concrete scenario are written, flushed, and the first is written again. -/
theorem write_buffer_in_bounds_witness :
    savefile_open (savefile_init none zeroMem none) SAVEFILE_WRITE = Except.ok freshWrite ∧
    (∀ text, WriteOp.write_line text ∈ demoOps → strlen text < SAVEFILE_BUF_SIZE) ∧
    (run_write_ops freshWrite demoOps).buf_off < SAVEFILE_BUF_SIZE ∧
    (run_write_ops freshWrite demoOps).buf_off ≤ SAVEFILE_BUF_SIZE ∧
    ∀ k, SAVEFILE_BUF_SIZE ≤ k →
      (run_write_ops freshWrite demoOps).buf k = (savefile_init none zeroMem none).buf k :=
  ⟨freshWrite_open, demoOps_short,
    write_buffer_in_bounds (savefile_init none zeroMem none) freshWrite SAVEFILE_WRITE
      freshWrite_open demoOps demoOps_short⟩

theorem open_read_inv {s0 s : savefile_t} (hs : savefile_open s0 SAVEFILE_READ = Except.ok s) :
    ∃ data, ReadInv s data := by
  cases hd : s0.disk with
  | none =>
    have := open_read_missing s0 hd
    rw [this] at hs
    exact absurd hs (by simp)
  | some data =>
    obtain ⟨s', h1, h2, _⟩ := open_read_spec s0 data hd
    rw [h1] at hs
    simp only [Except.ok.injEq] at hs
    subst hs
    exact ⟨data, h2⟩

theorem run_read_ops_inv (ops : List ReadOp) {s : savefile_t} {data : List Nat}
    (h : ReadInv s data) : ReadInv (run_read_ops s ops) data := by
  induction ops generalizing s with
  | nil => exact h
  | cons op ops ih =>
    simp only [run_read_ops, List.foldl_cons]
    apply ih
    cases op with
    | read_line dest max_len =>
      simp only [read_step]
      rw [read_line_state]
      exact (read_line_inv h _).1
    | eof => exact h
    | rewind => exact (rewind_spec h).1

theorem readChunk_length_le (s : savefile_t) (want : Nat) : (readChunk s want).length ≤ want := by
  simp only [readChunk]
  split
  · simp only [List.length_take]
    omega
  · simp

theorem readChunk_with_buf (s : savefile_t) (b : Mem) (want : Nat) :
    readChunk { s with buf := b } want = readChunk s want := rfl

/-- The refill of a state whose buffer has been replaced. -/
theorem refill_with_buf (s : savefile_t) (b : Mem) :
    refill { s with buf := b }
      = { refill s with
          buf := if s.buf_off = s.read_size ∧ s.eof = false
            then blit b 0 (readChunk s SAVEFILE_BUF_SIZE) else b } := by
  obtain ⟨disk, calls, fh, rs, e, name, buf, off⟩ := s
  by_cases hc : off = rs ∧ e = false
  · simp only [refill, hc, and_self, if_true, ReadFile, readChunk_with_buf]
    cases fh <;> rfl
  · simp only [refill, if_neg hc]

theorem refill_buf (s : savefile_t) :
    (refill s).buf = if s.buf_off = s.read_size ∧ s.eof = false
      then blit s.buf 0 (readChunk s SAVEFILE_BUF_SIZE) else s.buf := by
  obtain ⟨disk, calls, fh, rs, e, name, buf, off⟩ := s
  by_cases hc : off = rs ∧ e = false
  · simp only [refill, hc, and_self, if_true, ReadFile]
    cases fh <;> rfl
  · simp only [refill, if_neg hc]

theorem refill_read_size_le (s : savefile_t) (h : s.read_size ≤ SAVEFILE_BUF_SIZE) :
    (refill s).read_size ≤ SAVEFILE_BUF_SIZE := by
  obtain ⟨disk, calls, fh, rs, e, name, buf, off⟩ := s
  by_cases hc : off = rs ∧ e = false
  · have hl := readChunk_length_le ⟨disk, calls, fh, rs, e, name, buf, off⟩ SAVEFILE_BUF_SIZE
    simp only [refill, hc, and_self, if_true, ReadFile]
    cases fh <;> exact hl
  · simp only [refill, if_neg hc]
    exact h

theorem staged_with_buf (s : savefile_t) (b : Mem) (hsize : s.read_size ≤ SAVEFILE_BUF_SIZE)
    (hag : ∀ k, k < SAVEFILE_BUF_SIZE → b k = s.buf k) :
    staged { s with buf := b } = staged s := by
  simp only [staged]
  apply bytes_congr
  intro k _ hk
  exact hag k (by omega)

/-- What a read hands back, and the counters it leaves, do not depend on the
memory at or past `SAVEFILE_BUF_SIZE`. -/
theorem read_line_buf_congr (lim : Nat) (s : savefile_t) (b : Mem)
    (hsize : s.read_size ≤ SAVEFILE_BUF_SIZE)
    (hag : ∀ k, k < SAVEFILE_BUF_SIZE → b k = s.buf k) :
    lineOf lim { s with buf := b } = lineOf lim s ∧
    (stateOf lim { s with buf := b }).buf_off = (stateOf lim s).buf_off ∧
    (stateOf lim { s with buf := b }).read_size = (stateOf lim s).read_size ∧
    (stateOf lim { s with buf := b }).eof = (stateOf lim s).eof := by
  have hst := staged_with_buf s b hsize hag
  unfold lineOf stateOf
  simp only [hst]
  by_cases hh : (takeLine lim (staged s)).any isTerm = true
  · simp only [hh, if_true, and_self]
  · simp only [hh, Bool.false_eq_true, if_false]
    have hrw := refill_with_buf { s with buf_off := s.buf_off + (takeLine lim (staged s)).length } b
    have hrb := refill_buf { s with buf_off := s.buf_off + (takeLine lim (staged s)).length }
    have hrs := refill_read_size_le
      { s with buf_off := s.buf_off + (takeLine lim (staged s)).length } hsize
    have hlen := readChunk_length_le
      { s with buf_off := s.buf_off + (takeLine lim (staged s)).length } SAVEFILE_BUF_SIZE
    simp only at hrw hrb
    rw [hrw]
    generalize refill { s with buf_off := s.buf_off + (takeLine lim (staged s)).length } = s2
      at hrb hrs ⊢
    have hst2 := staged_with_buf s2 (if s.buf_off + (takeLine lim (staged s)).length
        = s.read_size ∧ s.eof = false
      then blit b 0 (readChunk
        { s with buf_off := s.buf_off + (takeLine lim (staged s)).length } SAVEFILE_BUF_SIZE)
      else b) hrs (by
        intro k hk
        rw [hrb]
        split
        · simp only [blit]
          split
          · rfl
          · exact hag k hk
        · exact hag k hk)
    simp only [hst2, and_self]

/-- C12: after an open in Read mode and any sequence of `savefile_read_line`,
`savefile_eof` and `savefile_rewind` calls, `buf_off <= read_size <=
SAVEFILE_BUF_SIZE`; and what a further `savefile_read_line` hands back and the
counters it leaves do not depend on the memory at or past
`SAVEFILE_BUF_SIZE`: every index it reads from the staging buffer is inside
it. -/
theorem read_buffer_invariant (s0 s : savefile_t)
    (hs : savefile_open s0 SAVEFILE_READ = Except.ok s) (ops : List ReadOp) :
    (run_read_ops s ops).buf_off ≤ (run_read_ops s ops).read_size ∧
    (run_read_ops s ops).read_size ≤ SAVEFILE_BUF_SIZE ∧
    ∀ (dest : Mem) (max_len : Nat) (b : Mem),
      (∀ k, k < SAVEFILE_BUF_SIZE → b k = (run_read_ops s ops).buf k) →
      (savefile_read_line dest max_len { run_read_ops s ops with buf := b }).line
        = (savefile_read_line dest max_len (run_read_ops s ops)).line ∧
      (savefile_read_line dest max_len { run_read_ops s ops with buf := b }).s.buf_off
        = (savefile_read_line dest max_len (run_read_ops s ops)).s.buf_off ∧
      (savefile_read_line dest max_len { run_read_ops s ops with buf := b }).s.read_size
        = (savefile_read_line dest max_len (run_read_ops s ops)).s.read_size ∧
      (savefile_read_line dest max_len { run_read_ops s ops with buf := b }).s.eof
        = (savefile_read_line dest max_len (run_read_ops s ops)).s.eof := by
  obtain ⟨data, hinv⟩ := open_read_inv hs
  have h := run_read_ops_inv ops hinv
  refine ⟨h.off_le, h.size_le, ?_⟩
  intro dest max_len b hag
  simp only [read_line_line, read_line_state]
  exact read_line_buf_congr (limit max_len) _ b h.size_le hag

/-- Witness of C12: a reading session on the two records of the concrete
scenario. -/
theorem read_buffer_invariant_witness :
    savefile_open (savefile_init (some demoLines.flatten) zeroMem none) SAVEFILE_READ
      = Except.ok (freshRead demoLines.flatten) ∧
    (run_read_ops (freshRead demoLines.flatten) demoReadOps).buf_off
      ≤ (run_read_ops (freshRead demoLines.flatten) demoReadOps).read_size ∧
    (run_read_ops (freshRead demoLines.flatten) demoReadOps).read_size ≤ SAVEFILE_BUF_SIZE ∧
    ∀ (dest : Mem) (max_len : Nat) (b : Mem),
      (∀ k, k < SAVEFILE_BUF_SIZE →
        b k = (run_read_ops (freshRead demoLines.flatten) demoReadOps).buf k) →
      (savefile_read_line dest max_len
          { run_read_ops (freshRead demoLines.flatten) demoReadOps with buf := b }).line
        = (savefile_read_line dest max_len
            (run_read_ops (freshRead demoLines.flatten) demoReadOps)).line ∧
      (savefile_read_line dest max_len
          { run_read_ops (freshRead demoLines.flatten) demoReadOps with buf := b }).s.buf_off
        = (savefile_read_line dest max_len
            (run_read_ops (freshRead demoLines.flatten) demoReadOps)).s.buf_off ∧
      (savefile_read_line dest max_len
          { run_read_ops (freshRead demoLines.flatten) demoReadOps with buf := b }).s.read_size
        = (savefile_read_line dest max_len
            (run_read_ops (freshRead demoLines.flatten) demoReadOps)).s.read_size ∧
      (savefile_read_line dest max_len
          { run_read_ops (freshRead demoLines.flatten) demoReadOps with buf := b }).s.eof
        = (savefile_read_line dest max_len
            (run_read_ops (freshRead demoLines.flatten) demoReadOps)).s.eof :=
  ⟨freshRead_open _,
    read_buffer_invariant (savefile_init (some demoLines.flatten) zeroMem none)
      (freshRead demoLines.flatten) (freshRead_open _) demoReadOps⟩

theorem WriteFile_os_true (s : savefile_t) (n : Nat) :
    (WriteFile_os true s n).2 = WriteFile s n := by
  obtain ⟨disk, calls, fh, rs, e, name, buf, off⟩ := s
  cases fh with
  | none => cases disk <;> rfl
  | some h =>
    obtain ⟨a, pos⟩ := h
    cases a <;> cases disk <;> rfl

/-- With a write the operating system accepts, `savefile_flush_os` is
`savefile_flush`. -/
theorem flush_os_true (s : savefile_t) : savefile_flush_os true s = savefile_flush s := by
  simp only [savefile_flush_os, savefile_flush, WriteFile_os_true]

theorem WriteFile_os_false (s : savefile_t) (n : Nat) :
    WriteFile_os false s n
      = (false, { s with calls := s.calls ++ [OsCall.writeFile (bytes s.buf 0 n)] }) := by
  simp only [WriteFile_os]

/-- C14 as stated fails: with two bytes pending and an OS write that fails,
`savefile_flush` hands nothing back but the savefile, and leaves it as a
successful flush does (empty buffer, same counters), while the file has not
received the two bytes. -/
theorem flush_failure_counterexample :
    pending twoPending = [97, 10] ∧
    (WriteFile_os false twoPending twoPending.buf_off).1 = false ∧
    (savefile_flush_os false twoPending).disk = some [] ∧
    (savefile_flush_os true twoPending).disk = some [97, 10] ∧
    (savefile_flush_os false twoPending).buf_off = 0 ∧
    pending (savefile_flush_os false twoPending) = [] ∧
    (savefile_flush_os false twoPending).buf = (savefile_flush_os true twoPending).buf ∧
    (savefile_flush_os false twoPending).buf_off = (savefile_flush_os true twoPending).buf_off := by
  refine ⟨by decide, rfl, rfl, by decide, rfl, by decide, ?_, rfl⟩
  simp only [flush_os_true, flush_buf]
  rfl

/-- C14, amended: for every state with pending bytes, when the OS write made by
`savefile_flush` fails, the call still returns normally and reports nothing:
the failed `WriteFile` and the `FlushFileBuffers` are its two OS calls, the
file is unchanged, and the buffer is left empty (`buf_off = 0`, `buf[0] = 0`)
with every field of the savefile as a successful flush leaves it, so the
pending bytes are dropped. -/
theorem flush_failure_silent (s : savefile_t) (hp : s.buf_off ≠ 0) :
    (WriteFile_os false s s.buf_off).1 = false ∧
    (savefile_flush_os false s).calls
      = s.calls ++ [OsCall.writeFile (pending s), OsCall.flushFileBuffers] ∧
    (savefile_flush_os false s).disk = s.disk ∧
    (savefile_flush_os false s).buf_off = 0 ∧
    (savefile_flush_os false s).buf 0 = 0 ∧
    pending (savefile_flush_os false s) = [] ∧
    (savefile_flush_os false s).buf = (savefile_flush_os true s).buf ∧
    (savefile_flush_os false s).buf_off = (savefile_flush_os true s).buf_off ∧
    (savefile_flush_os false s).read_size = (savefile_flush_os true s).read_size ∧
    (savefile_flush_os false s).eof = (savefile_flush_os true s).eof ∧
    (savefile_flush_os false s).name = (savefile_flush_os true s).name := by
  have hb : (savefile_flush_os true s).buf = store s.buf 0 0 := by
    rw [flush_os_true]; exact (flush_buf s).1
  have hw : ∀ n, (WriteFile s n).read_size = s.read_size ∧ (WriteFile s n).eof = s.eof ∧
      (WriteFile s n).name = s.name := by
    intro n
    simp only [WriteFile]
    split <;> exact ⟨rfl, rfl, rfl⟩
  refine ⟨by rw [WriteFile_os_false], ?_, ?_, rfl, ?_, ?_, ?_, rfl, ?_, ?_, ?_⟩
  · simp [savefile_flush_os, hp, WriteFile_os_false, FlushFileBuffers, pending]
  · simp [savefile_flush_os, hp, WriteFile_os_false, FlushFileBuffers]
  · simp [savefile_flush_os, hp, WriteFile_os_false, FlushFileBuffers, store]
  · simp [savefile_flush_os, pending, bytes]
  · rw [hb]
    simp [savefile_flush_os, hp, WriteFile_os_false, FlushFileBuffers]
  · simp [savefile_flush_os, hp, WriteFile_os_false, WriteFile_os_true, FlushFileBuffers, hw]
  · simp [savefile_flush_os, hp, WriteFile_os_false, WriteFile_os_true, FlushFileBuffers, hw]
  · simp [savefile_flush_os, hp, WriteFile_os_false, WriteFile_os_true, FlushFileBuffers, hw]

/-- Witness of C14 amended: two bytes pending. -/
theorem flush_failure_silent_witness :
    twoPending.buf_off ≠ 0 ∧
    (WriteFile_os false twoPending twoPending.buf_off).1 = false ∧
    (savefile_flush_os false twoPending).calls
      = twoPending.calls ++ [OsCall.writeFile (pending twoPending), OsCall.flushFileBuffers] ∧
    (savefile_flush_os false twoPending).disk = twoPending.disk ∧
    (savefile_flush_os false twoPending).buf_off = 0 ∧
    (savefile_flush_os false twoPending).buf 0 = 0 ∧
    pending (savefile_flush_os false twoPending) = [] ∧
    (savefile_flush_os false twoPending).buf = (savefile_flush_os true twoPending).buf ∧
    (savefile_flush_os false twoPending).buf_off = (savefile_flush_os true twoPending).buf_off ∧
    (savefile_flush_os false twoPending).read_size
      = (savefile_flush_os true twoPending).read_size ∧
    (savefile_flush_os false twoPending).eof = (savefile_flush_os true twoPending).eof ∧
    (savefile_flush_os false twoPending).name = (savefile_flush_os true twoPending).name :=
  ⟨by decide, flush_failure_silent twoPending (by decide)⟩

theorem long_record_first_read (n lim : Nat) (tail : List Nat) (hn : SAVEFILE_BUF_SIZE ≤ n)
    (hl : SAVEFILE_BUF_SIZE ≤ lim) :
    lineOf lim (freshRead (List.replicate n 97 ++ tail))
      = List.replicate SAVEFILE_BUF_SIZE 97 := by
  have hinv := freshRead_inv (List.replicate n 97 ++ tail)
  have hs : (staged (freshRead (List.replicate n 97 ++ tail))).length = 0 := by
    rw [staged_length]; rfl
  rw [lineOf_eq_takeLine hinv, window_eq hinv, freshRead_unread, hs, Nat.zero_add,
    List.take_append_of_le_length (by simpa using hn), List.take_replicate,
    Nat.min_eq_left hn, takeLine_of_clean _ _ (by
      intro x hx
      rw [List.eq_of_mem_replicate hx]
      decide),
    List.take_replicate, Nat.min_eq_right hl]

theorem crlfLong_eq : crlfLong = List.replicate 65536 97 ++ [13, 10] := by
  unfold crlfLong
  rfl

/-- C17 as stated fails: the file is one record of 65536 letters `a` closed by
`"\r\n"`, and `max_len = 65540` is large enough for the record; the first read
after the open stops after the 65536 letters, ahead of the first terminator. -/
theorem terminators_end_line_counterexample :
    unread (freshRead crlfLong) = List.replicate 65536 97 ++ [13] ++ [10] ∧
    (∀ x ∈ List.replicate 65536 97, isTerm x = false) ∧ isTerm 13 = true ∧
    (List.replicate 65536 97 ++ [13]).length + 1 ≤ 65540 ∧
    (savefile_read_line zeroMem 65540 (freshRead crlfLong)).line = List.replicate 65536 97 ∧
    (savefile_read_line zeroMem 65540 (freshRead crlfLong)).line
      ≠ List.replicate 65536 97 ++ [13] := by
  have hline : (savefile_read_line zeroMem 65540 (freshRead crlfLong)).line
      = List.replicate 65536 97 := by
    rw [read_line_line, crlfLong_eq]
    exact long_record_first_read 65536 (limit 65540) [13, 10] (Nat.le_refl _) (by decide)
  refine ⟨?_, ?_, by decide, ?_, hline, ?_⟩
  · rw [freshRead_unread, crlfLong_eq, List.append_assoc]
    rfl
  · intro x hx
    rw [List.eq_of_mem_replicate hx]
    decide
  · rw [List.length_append, List.length_replicate]
    decide
  · rw [hline]
    intro h
    have hlen := congrArg List.length h
    rw [List.length_append, List.length_replicate] at hlen
    simp at hlen

/-- C17, amended: for every reading state whose unread bytes are `body`, free of
terminators, then a byte `c` equal to `'\n'` or `'\r'`, then `tail`: when
`max_len` leaves room for `body`, `c` and the closing NUL, and `c` lies within
the staged bytes plus one refill of `SAVEFILE_BUF_SIZE` bytes,
`savefile_read_line` hands back `body` with `c` and stops there, `tail` being
what is left unread.  So when `c` is `'\r'` and `tail` begins with `'\n'` (a
record closed by `"\r\n"`), the next call hands back the one-byte string
`"\n"`. -/
theorem terminators_end_line (s : savefile_t) (data : List Nat) (h : ReadInv s data)
    (dest : Mem) (max_len : Nat) (body tail : List Nat) (c : Nat) (hc : c = 10 ∨ c = 13)
    (hb : ∀ x ∈ body, isTerm x = false) (hu : unread s = body ++ [c] ++ tail)
    (hfit : body.length + 2 ≤ max_len)
    (hwin : body.length + 1 ≤ (staged s).length + SAVEFILE_BUF_SIZE) :
    (savefile_read_line dest max_len s).line = body ++ [c] ∧
    unread (savefile_read_line dest max_len s).s = tail ∧
    (c = 13 → ∀ rest, tail = 10 :: rest → ∀ dest2,
      (savefile_read_line dest2 max_len (savefile_read_line dest max_len s).s).line = [10] ∧
      unread (savefile_read_line dest2 max_len (savefile_read_line dest max_len s).s).s
        = rest) := by
  have hct : isTerm c = true := by
    rcases hc with rfl | rfl <;> decide
  have hL : endsLine (body ++ [c]) = true := (endsLine_iff _).2 ⟨body, c, rfl, hct, hb⟩
  have hlim : limit max_len = max_len - 1 := limit_of_pos (by omega)
  obtain ⟨g1, g2, g3⟩ := read_line_whole h (limit max_len) (body ++ [c]) tail hu hL
    (by rw [hlim, List.length_append, List.length_singleton]; omega)
    (by rw [List.length_append, List.length_singleton]; exact hwin)
  rw [← read_line_line dest] at g1
  rw [← read_line_state dest] at g2 g3
  refine ⟨g1, g2, ?_⟩
  intro _ rest ht dest2
  have hL2 : endsLine [10] = true := by decide
  obtain ⟨k1, k2, _⟩ := read_line_whole g3 (limit max_len) [10] rest
    (by rw [g2, ht]; rfl) hL2
    (by rw [hlim, List.length_singleton]; omega)
    (by rw [List.length_singleton]; have := buf_size_pos; omega)
  rw [read_line_line dest2, read_line_state dest2]
  exact ⟨k1, k2⟩

/-- Witness of C17 amended: the file `"ab\r\ncd\n"`, just opened. -/
theorem terminators_end_line_witness :
    ReadInv (freshRead [97, 98, 13, 10, 99, 100, 10]) [97, 98, 13, 10, 99, 100, 10] ∧
    (13 = 10 ∨ 13 = 13) ∧ (∀ x ∈ [97, 98], isTerm x = false) ∧
    unread (freshRead [97, 98, 13, 10, 99, 100, 10]) = [97, 98] ++ [13] ++ [10, 99, 100, 10] ∧
    [97, 98].length + 2 ≤ 100 ∧
    [97, 98].length + 1
      ≤ (staged (freshRead [97, 98, 13, 10, 99, 100, 10])).length + SAVEFILE_BUF_SIZE ∧
    (savefile_read_line zeroMem 100 (freshRead [97, 98, 13, 10, 99, 100, 10])).line
      = [97, 98] ++ [13] ∧
    unread (savefile_read_line zeroMem 100 (freshRead [97, 98, 13, 10, 99, 100, 10])).s
      = [10, 99, 100, 10] ∧
    (13 = 13 → ∀ rest, [10, 99, 100, 10] = 10 :: rest → ∀ dest2,
      (savefile_read_line dest2 100
        (savefile_read_line zeroMem 100 (freshRead [97, 98, 13, 10, 99, 100, 10])).s).line
        = [10] ∧
      unread (savefile_read_line dest2 100
        (savefile_read_line zeroMem 100 (freshRead [97, 98, 13, 10, 99, 100, 10])).s).s
        = rest) :=
  ⟨freshRead_inv _, Or.inr rfl, by decide, freshRead_unread _, by decide, by decide,
    terminators_end_line (freshRead [97, 98, 13, 10, 99, 100, 10]) [97, 98, 13, 10, 99, 100, 10]
      (freshRead_inv _) zeroMem 100 [97, 98] [10, 99, 100, 10] 13 (Or.inr rfl) (by decide)
      (freshRead_unread _) (by decide) (by decide)⟩

theorem staleOpen_reached :
    savefile_open (savefile_close twoPending) SAVEFILE_APPEND = Except.ok staleOpen := rfl

theorem dirtyOpen_reached :
    savefile_open (savefile_init none (blit zeroMem 0 [97, 10, 0]) none) SAVEFILE_WRITE
      = Except.ok dirtyOpen := rfl

/-- C18 fails on the code: right after an open, with no call made yet, the
buffer may still hold a string while `buf_off` is 0 (a text written and never
flushed before a close, or whatever `xmalloc` returned: `savefile_open` clears
`buf_off` but not `buf[0]`).  There the direct flush writes no byte and the
stream flush writes the stale string. -/
theorem flush_backends_differ :
    savefile_open (savefile_close (savefile_write_line freshWrite [97, 10])) SAVEFILE_APPEND
      = Except.ok staleOpen ∧
    staleOpen.buf_off = 0 ∧
    (savefile_flush staleOpen).disk = some [] ∧
    (savefile_flush_stream staleOpen).disk = some [97, 10] ∧
    savefile_open (savefile_init none (blit zeroMem 0 [97, 10, 0]) none) SAVEFILE_WRITE
      = Except.ok dirtyOpen ∧
    (savefile_flush dirtyOpen).disk = some [] ∧
    (savefile_flush_stream dirtyOpen).disk = some [97, 10] := by
  exact ⟨rfl, rfl, rfl, by decide, rfl, rfl, by decide⟩

/-- The two ways a read can go: without a refill, the `eof` flag is as before;
with one, every staged byte was handed back, none a terminator, and the
flag is set exactly when the file had less than a whole buffer left. -/
theorem stateOf_cases {s : savefile_t} {data : List Nat} (h : ReadInv s data) (lim : Nat) :
    (stateOf lim s).eof = s.eof ∨
    (s.eof = false ∧ (∀ x ∈ staged s, isTerm x = false) ∧
      lineOf lim s = staged s
        ++ takeLine (lim - (staged s).length) ((ahead s).take SAVEFILE_BUF_SIZE) ∧
      ((stateOf lim s).eof = true ↔ (ahead s).length < SAVEFILE_BUF_SIZE) ∧
      unread (stateOf lim s)
        = ((ahead s).take SAVEFILE_BUF_SIZE).drop
            (takeLine (lim - (staged s).length) ((ahead s).take SAVEFILE_BUF_SIZE)).length
          ++ (ahead s).drop SAVEFILE_BUF_SIZE) := by
  have hsplit := takeLine_append_drop lim (staged s)
  have hlen1 := takeLine_length_le_length lim (staged s)
  have hinv1 := readInv_advance h _ hlen1
  unfold stateOf lineOf
  simp only
  by_cases hh : (takeLine lim (staged s)).any isTerm = true
  · left
    simp only [hh, if_true]
  · simp only [hh, Bool.false_eq_true, if_false]
    by_cases hr : s.buf_off + (takeLine lim (staged s)).length = s.read_size ∧ s.eof = false
    · right
      obtain ⟨g1, g2, g3, g4, g5, g6⟩ := refill_spec hinv1 hr.1 hr.2
      have ha1 : ahead { s with buf_off := s.buf_off + (takeLine lim (staged s)).length }
          = ahead s := rfl
      rw [ha1] at g2 g3 g6
      have hfull : (staged s).drop (takeLine lim (staged s)).length = [] := by
        apply List.drop_of_length_le
        rw [staged_length]
        have := h.off_le
        omega
      rw [hfull, List.append_nil] at hsplit
      have hclean : ∀ x ∈ staged s, isTerm x = false := by
        intro x hx
        by_contra hne
        apply hh
        rw [hsplit]
        exact List.any_eq_true.2 ⟨x, hx, by simpa using hne⟩
      refine ⟨hr.2, hclean, ?_, g6, ?_⟩
      · rw [g2, hsplit]
      · simp only [unread, staged_advance]
        rw [ahead_advance, g3, g2, hsplit]
    · left
      rw [refill_noop _ hr]

theorem ahead_dvd {s : savefile_t} {data : List Nat} (h : ReadInv s data)
    (he : s.eof = false) (hC : SAVEFILE_BUF_SIZE ∣ data.length) :
    SAVEFILE_BUF_SIZE ∣ (ahead s).length := by
  obtain ⟨pos, hh, _, _, he2⟩ := h.handle
  simp only [ahead, hh, h.disk, List.length_drop]
  exact Nat.dvd_sub' hC (he2 he)

/-- On a file that is a whole number of buffers long, the `eof` flag is set
only once nothing is left unread, and a read keeps it so. -/
theorem eof_flag_step {s : savefile_t} {data : List Nat} (h : ReadInv s data) (lim : Nat)
    (hC : SAVEFILE_BUF_SIZE ∣ data.length) (hk : s.eof = true → unread s = []) :
    (stateOf lim s).eof = true → unread (stateOf lim s) = [] := by
  intro he
  obtain ⟨_, hcons⟩ := read_line_inv h lim
  rcases stateOf_cases h lim with hA | ⟨hB1, _, _, hB4, hB5⟩
  · rw [hA] at he
    have hu := hk he
    rw [hu] at hcons
    exact (List.append_eq_nil.1 hcons.symm).2
  · have hlt := hB4.1 he
    have hz : (ahead s).length = 0 :=
      Nat.eq_zero_of_dvd_of_lt (ahead_dvd h hB1 hC) hlt
    have ha : ahead s = [] := List.eq_nil_of_length_eq_zero hz
    rw [hB5, ha]
    simp

theorem read_lines_eof_flag (max_len n : Nat) (dest : Mem) {s : savefile_t} {data : List Nat}
    (h : ReadInv s data) (hC : SAVEFILE_BUF_SIZE ∣ data.length)
    (hk : s.eof = true → unread s = []) :
    (read_lines dest max_len n s).2.eof = true → unread (read_lines dest max_len n s).2 = [] := by
  induction n generalizing dest s with
  | zero => exact hk
  | succ n ih =>
    simp only [read_lines]
    apply ih
    · rw [read_line_state]
      exact (read_line_inv h _).1
    · rw [read_line_state]
      exact eof_flag_step h _ hC hk

/-- On a file that is a whole number of buffers long, a read that starts with
bytes left unread, the last of them a terminator, leaves the `eof` flag
clear. -/
theorem eof_clear_after_last {s : savefile_t} {data : List Nat} (h : ReadInv s data)
    (lim : Nat) (hC : SAVEFILE_BUF_SIZE ∣ data.length) (hk : s.eof = true → unread s = [])
    (hne : unread s ≠ [])
    (hend : ∀ c, (unread s).getLast? = some c → isTerm c = true) :
    (stateOf lim s).eof = false := by
  have he : s.eof = false := by
    by_contra hne'
    exact hne (hk (by simpa using hne'))
  rcases stateOf_cases h lim with hA | ⟨_, hB2, hB3, hB4, _⟩
  · rw [hA, he]
  · by_contra hne'
    have het : (stateOf lim s).eof = true := by simpa using hne'
    have hlt := hB4.1 het
    have hz : (ahead s).length = 0 :=
      Nat.eq_zero_of_dvd_of_lt (ahead_dvd h he hC) hlt
    have ha : ahead s = [] := List.eq_nil_of_length_eq_zero hz
    have hun : unread s = staged s := by simp [unread, ha]
    rw [hun] at hne hend
    obtain ⟨c, hc⟩ : ∃ c, (staged s).getLast? = some c := by
      cases hs : (staged s).getLast? with
      | none => exact absurd (List.getLast?_eq_none_iff.1 hs) hne
      | some c => exact ⟨c, rfl⟩
    have h1 := hend c hc
    have h2 := hB2 c (List.mem_of_getLast?_eq_some hc)
    rw [h1] at h2
    exact absurd h2 (by simp)

/-- A read that starts with unread bytes free of terminators, all of them
staged and fewer than the destination holds, on a file already read through:
it hands them all back and sets `savefile_eof` in the same call. -/
theorem eof_set_by_tail {s : savefile_t} {data : List Nat} (h : ReadInv s data) (lim : Nat)
    (he : s.eof = false) (ha : ahead s = []) (hc : ∀ x ∈ staged s, isTerm x = false)
    (hl : (staged s).length < lim) :
    lineOf lim s = staged s ∧ savefile_eof (stateOf lim s) = true := by
  have ht1 : takeLine lim (staged s) = staged s := by
    rw [takeLine_of_clean _ _ hc, List.take_of_length_le (by omega)]
  have hany : (staged s).any isTerm = false := by
    simp only [List.any_eq_false]
    intro x hx
    simpa using hc x hx
  have hinv1 := readInv_advance h (staged s).length (Nat.le_refl _)
  have hoff := h.off_le
  have hsl := staged_length s
  obtain ⟨_, g2, _, g4, g5, g6⟩ := refill_spec hinv1 (by simp only; omega) he
  have ha1 : ahead { s with buf_off := s.buf_off + (staged s).length } = ahead s := rfl
  rw [ha1, ha] at g2 g5 g6
  simp only [List.take_nil, List.length_nil] at g2 g5 g6
  have he2 := g6.2 buf_size_pos
  unfold lineOf stateOf
  simp only [ht1, hany, Bool.false_eq_true, if_false, g2, takeLine_nil, List.append_nil,
    List.length_nil, Nat.add_zero, true_and]
  simp [savefile_eof, g4, g5, he2]

theorem read_lines_snoc (max_len n : Nat) (dest : Mem) (s : savefile_t) :
    ∃ d, read_lines dest max_len (n + 1) s
      = ((read_lines dest max_len n s).1
          ++ [(savefile_read_line d max_len (read_lines dest max_len n s).2).line],
        (savefile_read_line d max_len (read_lines dest max_len n s).2).s) := by
  induction n generalizing dest s with
  | zero => exact ⟨dest, by simp [read_lines]⟩
  | succ n ih =>
    obtain ⟨d, hd⟩ := ih (savefile_read_line dest max_len s).dest
      (savefile_read_line dest max_len s).s
    refine ⟨d, ?_⟩
    rw [read_lines, hd]
    simp [read_lines]

/-- The first read of a file of exactly one buffer that begins with a whole
line: the line is handed back, the rest is staged, the file is read through
and `eof` is clear. -/
theorem first_read_full (data L rest : List Nat) (lim : Nat) (hd : data = L ++ rest)
    (hL : endsLine L = true) (hfit : L.length ≤ lim)
    (hlen : data.length = SAVEFILE_BUF_SIZE) :
    lineOf lim (freshRead data) = L ∧ ReadInv (stateOf lim (freshRead data)) data ∧
    (stateOf lim (freshRead data)).eof = false ∧ ahead (stateOf lim (freshRead data)) = [] ∧
    staged (stateOf lim (freshRead data)) = rest := by
  have hinv := freshRead_inv data
  obtain ⟨g1, g2, g3⟩ := read_line_whole hinv lim L rest
    (by rw [freshRead_unread, hd]) hL hfit (by
      have := congrArg List.length hd
      rw [List.length_append] at this
      omega)
  obtain ⟨r1, r2, r3, r4, r5, r6⟩ := refill_spec hinv rfl rfl
  have hah : ahead (freshRead data) = data := by
    have := freshRead_unread data
    simpa [unread, staged, freshRead, bytes] using this
  rw [hah] at r3 r6
  have hst : staged (freshRead data) = [] := by
    apply List.eq_nil_of_length_eq_zero
    rw [staged_length]; rfl
  have hs0 : ({ freshRead data with buf_off := (freshRead data).buf_off } : savefile_t)
      = freshRead data := rfl
  have he : (stateOf lim (freshRead data)).eof = false := by
    unfold stateOf
    simp only [hst, takeLine_nil, List.any_nil, Bool.false_eq_true, if_false, List.length_nil,
      Nat.add_zero, hs0]
    cases hre : (refill (freshRead data)).eof with
    | false => rfl
    | true =>
      have := r6.1 hre
      omega
  have ha : ahead (stateOf lim (freshRead data)) = [] := by
    unfold stateOf
    simp only [hst, takeLine_nil, List.any_nil, Bool.false_eq_true, if_false, List.length_nil,
      Nat.add_zero, hs0]
    rw [ahead_advance, r3]
    exact List.drop_of_length_le (by omega)
  refine ⟨g1, g3, he, ha, ?_⟩
  have hu := g2
  rw [unread, ha, List.append_nil] at hu
  exact hu

theorem tail_file_reads (n max_len : Nat) (dest : Mem) (hn : n + 1 = SAVEFILE_BUF_SIZE)
    (hm : n + 2 ≤ max_len) :
    (read_lines dest max_len 1 (freshRead ([10] ++ List.replicate n 98))).1 = [[10]] ∧
    (read_lines dest max_len 2 (freshRead ([10] ++ List.replicate n 98))).1
      = [[10], List.replicate n 98] ∧
    savefile_eof (read_lines dest max_len 2 (freshRead ([10] ++ List.replicate n 98))).2
      = true := by
  have hlim : limit max_len = max_len - 1 := limit_of_pos (by omega)
  obtain ⟨f1, f2, f3, f4, f5⟩ := first_read_full ([10] ++ List.replicate n 98) [10]
    (List.replicate n 98) (limit max_len) rfl (by decide)
    (by rw [hlim, List.length_singleton]; omega)
    (by rw [List.length_append, List.length_replicate, List.length_singleton]; omega)
  obtain ⟨t1, t2⟩ := eof_set_by_tail f2 (limit max_len) f3 f4
    (by
      rw [f5]
      intro x hx
      rw [List.eq_of_mem_replicate hx]
      decide)
    (by rw [f5, List.length_replicate, hlim]; omega)
  rw [f5] at t1
  simp only [read_lines, read_line_line, read_line_state, f1, t1, t2, and_self]

theorem tailFile_eq : tailFile = [10] ++ List.replicate 65535 98 := by
  unfold tailFile
  rfl

/-- C19 as stated fails: the file is 65536 bytes long, a newline and then 65535
letters `b`.  The second read after the open hands back the last bytes of the
file, and `savefile_eof` is already true when it returns. -/
theorem eof_lags_one_read_counterexample :
    tailFile.length = 1 * 65536 ∧
    (read_lines zeroMem 65537 1 (freshRead tailFile)).1.flatten ≠ tailFile ∧
    (read_lines zeroMem 65537 2 (freshRead tailFile)).1 = [[10], List.replicate 65535 98] ∧
    (read_lines zeroMem 65537 2 (freshRead tailFile)).1.flatten = tailFile ∧
    savefile_eof (read_lines zeroMem 65537 2 (freshRead tailFile)).2 = true := by
  obtain ⟨h0, h1, h2⟩ := tail_file_reads 65535 65537 zeroMem (by decide) (by decide)
  rw [← tailFile_eq] at h0 h1 h2
  have hlen : tailFile.length = 65536 := by
    rw [tailFile_eq, List.length_append, List.length_replicate]
    rfl
  refine ⟨hlen, ?_, h1, ?_, h2⟩
  · rw [h0]
    intro h
    have hl2 := congrArg List.length h
    rw [hlen] at hl2
    exact absurd hl2 (by decide)
  · rw [h1, tailFile_eq]
    simp only [List.flatten_cons, List.flatten_nil, List.append_nil]

/-- Reads go on handing back bytes until none is left unread. -/
theorem exists_all_delivered (max_len : Nat) (hm : 2 ≤ max_len) (bound : Nat) (dest : Mem)
    {s : savefile_t} {data : List Nat} (h : ReadInv s data)
    (hb : (unread s).length ≤ bound) :
    ∃ n, unread (read_lines dest max_len n s).2 = [] := by
  induction bound generalizing dest s with
  | zero => exact ⟨0, List.eq_nil_of_length_eq_zero (Nat.le_zero.1 hb)⟩
  | succ bound ih =>
    by_cases hu : unread s = []
    · exact ⟨0, hu⟩
    · obtain ⟨hinv, hcons⟩ := read_line_inv h (limit max_len)
      have hlim : 1 ≤ limit max_len := by rw [limit_of_pos (by omega)]; omega
      have hne : lineOf (limit max_len) s ≠ [] := by
        intro hnil
        have he := eof_of_lineOf_nil h (limit max_len) hlim hnil
        rw [hnil, unread_nil_of_eof hinv he] at hcons
        exact hu hcons
      have hpos : (lineOf (limit max_len) s).length ≠ 0 := by simpa using hne
      have hl := congrArg List.length hcons
      rw [List.length_append] at hl
      rw [← read_line_state dest] at hinv hl
      obtain ⟨n, hn⟩ := ih (savefile_read_line dest max_len s).dest hinv (by omega)
      exact ⟨n + 1, by simpa [read_lines] using hn⟩

/-- C19, amended: for every file whose length is `k * 65536` for some `k >= 0`
and which is empty or ends with a terminator, and every `max_len >= 2`: there
is a first moment `n` at which the `savefile_read_line` calls made since the
open have handed back every byte of the file (`n = 0`, right after the open,
when the file is empty); `savefile_eof` is still false then, and one further
call hands back the empty string and makes it true. -/
theorem eof_lags_one_read (s0 : savefile_t) (content : List Nat) (k : Nat)
    (hlen : content.length = k * SAVEFILE_BUF_SIZE)
    (hend : ∀ c, content.getLast? = some c → isTerm c = true)
    (h0 : s0.disk = some content) (dest : Mem) (max_len : Nat) (hm : 2 ≤ max_len) :
    ∃ s n, savefile_open s0 SAVEFILE_READ = Except.ok s ∧
      (read_lines dest max_len n s).1.flatten = content ∧
      (∀ m, m < n → (read_lines dest max_len m s).1.flatten ≠ content) ∧
      savefile_eof (read_lines dest max_len n s).2 = false ∧
      (read_lines dest max_len (n + 1) s).1 = (read_lines dest max_len n s).1 ++ [[]] ∧
      savefile_eof (read_lines dest max_len (n + 1) s).2 = true := by
  classical
  obtain ⟨s, hs, hinv, hu, _, _, he, _⟩ := open_read_spec s0 content h0
  have hC : SAVEFILE_BUF_SIZE ∣ content.length := ⟨k, by rw [hlen, Nat.mul_comm]⟩
  have hk0 : s.eof = true → unread s = [] := by
    intro h
    rw [he] at h
    exact absurd h (by simp)
  have hlim : 1 ≤ limit max_len := by rw [limit_of_pos (by omega)]; omega
  have hiff : ∀ n, unread (read_lines dest max_len n s).2 = [] ↔
      (read_lines dest max_len n s).1.flatten = content := by
    intro n
    obtain ⟨_, hc⟩ := read_lines_inv max_len n dest hinv
    rw [hu] at hc
    constructor
    · intro h
      rw [h, List.append_nil] at hc
      exact hc.symm
    · intro h
      rw [← h] at hc
      exact List.append_right_eq_self.1 hc.symm
  have hex : ∃ n, (read_lines dest max_len n s).1.flatten = content := by
    obtain ⟨n, hn⟩ := exists_all_delivered max_len hm _ dest hinv (Nat.le_refl _)
    exact ⟨n, (hiff n).1 hn⟩
  have hall := Nat.find_spec hex
  have hmin : ∀ m, m < Nat.find hex → (read_lines dest max_len m s).1.flatten ≠ content :=
    fun m hlt => Nat.find_min hex hlt
  generalize Nat.find hex = n at hall hmin
  obtain ⟨hinvn, _⟩ := read_lines_inv max_len n dest hinv
  have hun : unread (read_lines dest max_len n s).2 = [] := (hiff n).2 hall
  have hflag : (read_lines dest max_len n s).2.eof = false := by
    cases n with
    | zero => exact he
    | succ m =>
      obtain ⟨d, hd⟩ := read_lines_snoc max_len m dest s
      obtain ⟨hinvm, hconsm⟩ := read_lines_inv max_len m dest hinv
      rw [hu] at hconsm
      have hne : unread (read_lines dest max_len m s).2 ≠ [] := by
        intro hnil
        exact hmin m (Nat.lt_succ_self m) ((hiff m).1 hnil)
      have hkm := read_lines_eof_flag max_len m dest hinv hC hk0
      have hendm : ∀ c, (unread (read_lines dest max_len m s).2).getLast? = some c →
          isTerm c = true := by
        intro c hc
        apply hend c
        rw [hconsm, List.getLast?_append_of_ne_nil _ hne]
        exact hc
      have := eof_clear_after_last hinvm (limit max_len) hC hkm hne hendm
      rw [hd, read_line_state]
      exact this
  obtain ⟨d, hd⟩ := read_lines_snoc max_len n dest s
  obtain ⟨_, hcons1⟩ := read_line_inv hinvn (limit max_len)
  rw [hun] at hcons1
  have hline : lineOf (limit max_len) (read_lines dest max_len n s).2 = [] :=
    (List.append_eq_nil.1 hcons1.symm).1
  have heof := eof_of_lineOf_nil hinvn (limit max_len) hlim hline
  refine ⟨s, n, hs, hall, hmin, by simp [savefile_eof, hflag], ?_, ?_⟩
  · rw [hd, read_line_line, hline]
  · rw [hd, read_line_state]
    exact heof

theorem fullLine_eq : fullLine = List.replicate 65535 97 ++ [10] := by
  unfold fullLine
  rfl

theorem fullLine_length : fullLine.length = 1 * SAVEFILE_BUF_SIZE := by
  rw [fullLine_eq, List.length_append, List.length_replicate]
  rfl

theorem fullLine_last : ∀ c, fullLine.getLast? = some c → isTerm c = true := by
  intro c hc
  rw [fullLine_eq, List.getLast?_concat] at hc
  simp only [Option.some.injEq] at hc
  subst hc
  decide

/-- Witness of C19 amended: a file of one line of 65535 letters and its
newline, one buffer long. -/
theorem eof_lags_one_read_witness :
    fullLine.length = 1 * SAVEFILE_BUF_SIZE ∧
    (∀ c, fullLine.getLast? = some c → isTerm c = true) ∧
    (savefile_init (some fullLine) zeroMem none).disk = some fullLine ∧ 2 ≤ 65537 ∧
    ∃ s n, savefile_open (savefile_init (some fullLine) zeroMem none) SAVEFILE_READ
        = Except.ok s ∧
      (read_lines zeroMem 65537 n s).1.flatten = fullLine ∧
      (∀ m, m < n → (read_lines zeroMem 65537 m s).1.flatten ≠ fullLine) ∧
      savefile_eof (read_lines zeroMem 65537 n s).2 = false ∧
      (read_lines zeroMem 65537 (n + 1) s).1 = (read_lines zeroMem 65537 n s).1 ++ [[]] ∧
      savefile_eof (read_lines zeroMem 65537 (n + 1) s).2 = true :=
  ⟨fullLine_length, fullLine_last, rfl, by decide,
    eof_lags_one_read (savefile_init (some fullLine) zeroMem none) fullLine 1 fullLine_length
      fullLine_last rfl zeroMem 65537 (by decide)⟩

theorem cstr_append_nul (p r : List Nat) (hp : ∀ x ∈ p, x ≠ 0) : cstr (p ++ 0 :: r) = p := by
  unfold cstr
  induction p with
  | nil => simp
  | cons c cs ih =>
    have hc : c ≠ 0 := hp c (by simp)
    simp only [List.cons_append, List.takeWhile_cons, bne_iff_ne, ne_eq, hc, not_false_eq_true,
      decide_True, if_true]
    rw [ih (fun x hx => hp x (by simp [hx]))]

theorem mem_bytes {mem : Mem} {lo hi x : Nat} (h : x ∈ bytes mem lo hi) :
    ∃ k, lo ≤ k ∧ k < hi ∧ mem k = x := by
  simp only [bytes, List.mem_map, List.mem_range'_1] at h
  obtain ⟨k, ⟨h1, h2⟩, h3⟩ := h
  exact ⟨k, h1, by omega, h3⟩

/-- In a terminated buffer the C string is the pending bytes. -/
theorem c_string_of_terminated {s : savefile_t} (h : Terminated s) :
    c_string s.buf SAVEFILE_BUF_SIZE = pending s := by
  obtain ⟨⟨h1, h2⟩, h3⟩ := h
  rw [c_string, bytes_append s.buf 0 s.buf_off SAVEFILE_BUF_SIZE (Nat.zero_le _)
    (Nat.le_of_lt h1), bytes_cons s.buf h1, h3]
  apply cstr_append_nul
  intro x hx
  obtain ⟨k, _, hk, hkx⟩ := mem_bytes hx
  rw [← hkx]
  exact h2 k hk

theorem fprintf_bytes (s : savefile_t) (n : Nat) (hn : n ≠ 0) :
    fprintf s (bytes s.buf 0 n) = WriteFile s n := by
  have hne : bytes s.buf 0 n ≠ [] := by
    intro h
    have := congrArg List.length h
    rw [bytes_length] at this
    simp at this
    exact hn this
  simp only [fprintf, if_neg hne, WriteFile]

/-- On a terminated buffer the two flushes leave the same file and the same
savefile; they differ by the record of the direct build's
`FlushFileBuffers`. -/
theorem flush_stream_eq {s : savefile_t} (h : Terminated s) :
    savefile_flush s
      = { savefile_flush_stream s with
          calls := (savefile_flush_stream s).calls ++ [OsCall.flushFileBuffers] } := by
  have hc := c_string_of_terminated h
  by_cases ho : s.buf_off = 0
  · have hp : pending s = [] := by simp [pending, ho, bytes]
    simp [savefile_flush, savefile_flush_stream, hc, hp, ho, fprintf, fflush, FlushFileBuffers]
  · rw [pending] at hc
    simp [savefile_flush, savefile_flush_stream, hc, ho, fprintf_bytes, fflush,
      FlushFileBuffers]

theorem cstr_nonzero (text : List Nat) : ∀ x ∈ cstr text, x ≠ 0 := by
  intro x hx
  have := List.mem_takeWhile_imp hx
  simpa using this

theorem write_line_terminated (s : savefile_t) (text : List Nat) (h : Clean s)
    (hn : strlen text < SAVEFILE_BUF_SIZE) : Terminated (savefile_write_line s text) := by
  obtain ⟨w1, _⟩ := write_line_in_bounds s text hn
  have hlen : (cstr text ++ [0]).length = strlen text + 1 := by simp [strlen]
  have hget : ∀ i, i < strlen text → (cstr text ++ [0]).getD i 0 ≠ 0 := by
    intro i hi
    rw [List.getD_eq_getElem?_getD, List.getElem?_append_left (by simpa [strlen] using hi),
      List.getElem?_eq_getElem (by simpa [strlen] using hi)]
    exact cstr_nonzero text _ (List.getElem_mem _)
  have hlast : (cstr text ++ [0]).getD (strlen text) 0 = 0 := by
    rw [List.getD_eq_getElem?_getD, List.getElem?_append_right (by simp [strlen])]
    simp [strlen]
  refine ⟨⟨w1, ?_⟩, ?_⟩
  · by_cases hc : s.buf_off + strlen text + 1 ≥ SAVEFILE_BUF_SIZE
    · obtain ⟨f1, f2⟩ := flush_buf s
      simp only [savefile_write_line, sprintf, if_pos hc, f1, f2, Nat.zero_add]
      intro k hk
      have h1 : 0 ≤ k ∧ k < 0 + (cstr text ++ [0]).length := by rw [hlen]; omega
      simp only [blit, if_pos h1, Nat.sub_zero]
      exact hget k hk
    · simp only [savefile_write_line, sprintf, if_neg hc]
      intro k hk
      by_cases hko : k < s.buf_off
      · have h1 : ¬ (s.buf_off ≤ k ∧ k < s.buf_off + (cstr text ++ [0]).length) := by omega
        simp only [blit, if_neg h1]
        exact h.2 k hko
      · have h1 : s.buf_off ≤ k ∧ k < s.buf_off + (cstr text ++ [0]).length := by
          rw [hlen]; omega
        simp only [blit, if_pos h1]
        exact hget _ (by omega)
  · by_cases hc : s.buf_off + strlen text + 1 ≥ SAVEFILE_BUF_SIZE
    · obtain ⟨f1, f2⟩ := flush_buf s
      simp only [savefile_write_line, sprintf, if_pos hc, f1, f2, Nat.zero_add]
      have h1 : 0 ≤ strlen text ∧ strlen text < 0 + (cstr text ++ [0]).length := by
        rw [hlen]; omega
      simp only [blit, if_pos h1, Nat.sub_zero]
      exact hlast
    · simp only [savefile_write_line, sprintf, if_neg hc]
      have h1 : s.buf_off ≤ s.buf_off + strlen text ∧
          s.buf_off + strlen text < s.buf_off + (cstr text ++ [0]).length := by
        rw [hlen]; omega
      simp only [blit, if_pos h1, Nat.add_sub_cancel_left]
      exact hlast

theorem flush_terminated (s : savefile_t) : Terminated (savefile_flush s) := by
  obtain ⟨f1, f2⟩ := flush_buf s
  refine ⟨⟨by rw [f2]; exact buf_size_pos, ?_⟩, ?_⟩
  · intro k hk
    rw [f2] at hk
    omega
  · rw [f1, f2]
    simp [store]

theorem run_write_ops_terminated (ops : List WriteOp) (s : savefile_t) (h : Clean s)
    (hne : ops ≠ [])
    (hn : ∀ text, WriteOp.write_line text ∈ ops → strlen text < SAVEFILE_BUF_SIZE) :
    Terminated (run_write_ops s ops) := by
  induction ops generalizing s with
  | nil => exact absurd rfl hne
  | cons op ops ih =>
    have hstep : Terminated (write_step s op) := by
      cases op with
      | write_line text =>
        exact write_line_terminated s text h (hn text (List.mem_cons_self _ _))
      | flush => exact flush_terminated s
    by_cases hnil : ops = []
    · subst hnil
      exact hstep
    · simp only [run_write_ops, List.foldl_cons]
      exact ih (write_step s op) hstep.1 hnil
        (fun text ht => hn text (List.mem_cons_of_mem _ ht))

/-- Where the two builds agree: after a successful open and at least one
`savefile_write_line` or `savefile_flush` call, every text being shorter than
`SAVEFILE_BUF_SIZE`, the stream flush and the direct flush leave the same file
content, the same file position and the same buffer. -/
theorem flush_backends_agree (s0 s : savefile_t) (flags : Flags)
    (hs : savefile_open s0 flags = Except.ok s) (ops : List WriteOp) (hne : ops ≠ [])
    (hn : ∀ text, WriteOp.write_line text ∈ ops → strlen text < SAVEFILE_BUF_SIZE) :
    (savefile_flush_stream (run_write_ops s ops)).disk
      = (savefile_flush (run_write_ops s ops)).disk ∧
    (savefile_flush_stream (run_write_ops s ops)).file_handle
      = (savefile_flush (run_write_ops s ops)).file_handle ∧
    (savefile_flush_stream (run_write_ops s ops)).buf
      = (savefile_flush (run_write_ops s ops)).buf ∧
    (savefile_flush_stream (run_write_ops s ops)).buf_off
      = (savefile_flush (run_write_ops s ops)).buf_off := by
  obtain ⟨_, h2, _, _⟩ := open_ok_fields hs
  have hclean : Clean s := ⟨by rw [h2]; exact buf_size_pos, fun k hk => by rw [h2] at hk; omega⟩
  have ht := run_write_ops_terminated ops s hclean hne hn
  rw [flush_stream_eq ht]
  exact ⟨rfl, rfl, rfl, rfl⟩

/-- Witness of the agreement of the two flushes: the writing session of the
concrete scenario. -/
theorem flush_backends_agree_witness :
    savefile_open (savefile_init none zeroMem none) SAVEFILE_WRITE = Except.ok freshWrite ∧
    demoOps ≠ [] ∧
    (∀ text, WriteOp.write_line text ∈ demoOps → strlen text < SAVEFILE_BUF_SIZE) ∧
    (savefile_flush_stream (run_write_ops freshWrite demoOps)).disk
      = (savefile_flush (run_write_ops freshWrite demoOps)).disk ∧
    (savefile_flush_stream (run_write_ops freshWrite demoOps)).file_handle
      = (savefile_flush (run_write_ops freshWrite demoOps)).file_handle ∧
    (savefile_flush_stream (run_write_ops freshWrite demoOps)).buf
      = (savefile_flush (run_write_ops freshWrite demoOps)).buf ∧
    (savefile_flush_stream (run_write_ops freshWrite demoOps)).buf_off
      = (savefile_flush (run_write_ops freshWrite demoOps)).buf_off :=
  ⟨freshWrite_open, by simp [demoOps], demoOps_short,
    flush_backends_agree (savefile_init none zeroMem none) freshWrite SAVEFILE_WRITE
      freshWrite_open demoOps (by simp [demoOps]) demoOps_short⟩

theorem fprintf_buf (s : savefile_t) (str : List Nat) : (fprintf s str).buf = s.buf := by
  simp only [fprintf]
  split
  · rfl
  · split <;> rfl

theorem c_string_store_zero (mem : Mem) : c_string (store mem 0 0) SAVEFILE_BUF_SIZE = [] := by
  rw [c_string, bytes_cons _ buf_size_pos]
  simp [cstr, store]

/-- C13: for every state, a second `savefile_flush` right after a first one
leaves the file content and every field of the savefile as the first left
them; the one thing it adds is the record of its `FlushFileBuffers` call, and
it makes no `WriteFile` call.  The stream build's flush, repeated, changes
nothing at all. -/
theorem flush_idempotent (s : savefile_t) :
    savefile_flush (savefile_flush s)
      = { savefile_flush s with
          calls := (savefile_flush s).calls ++ [OsCall.flushFileBuffers] } ∧
    (savefile_flush (savefile_flush s)).disk = (savefile_flush s).disk ∧
    savefile_flush_stream (savefile_flush_stream s) = savefile_flush_stream s := by
  have h : savefile_flush (savefile_flush s)
      = { savefile_flush s with
          calls := (savefile_flush s).calls ++ [OsCall.flushFileBuffers] } := by
    simp [savefile_flush, FlushFileBuffers, store_store]
  refine ⟨h, by rw [h], ?_⟩
  have hb : (savefile_flush_stream s).buf = store s.buf 0 0 := by
    simp [savefile_flush_stream, fflush, fprintf_buf]
  have hc : c_string (savefile_flush_stream s).buf SAVEFILE_BUF_SIZE = [] := by
    rw [hb]
    exact c_string_store_zero _
  have hf : fprintf (savefile_flush_stream s) [] = savefile_flush_stream s := by
    simp [fprintf]
  have hunf : savefile_flush_stream (savefile_flush_stream s)
      = { fprintf (savefile_flush_stream s)
            (c_string (savefile_flush_stream s).buf SAVEFILE_BUF_SIZE) with
          buf_off := 0,
          buf := store (fprintf (savefile_flush_stream s)
            (c_string (savefile_flush_stream s).buf SAVEFILE_BUF_SIZE)).buf 0 0 } := rfl
  rw [hunf, hc, hf, hb, store_store]
  simp [savefile_flush_stream, fflush, fprintf_buf]

end Savefile
